import Mathlib

/-!
Verification of the askjson JSON viewer core (`src/gui.py`).

We shallowly embed the analytically relevant parts of the program:

* `JValue`  — parsed JSON values (`json.loads` output).  JSON numbers are
  modelled as integers (`ℤ`); the statistical results computed from them
  (`mean`, `avg_length`, …) are exact rationals, matching Python's
  `statistics` module which computes these exactly on integer data.
  `statistics.stdev` returns an irrational square root, so the embedding
  stores the *square* of the standard deviation (the exact sample
  variance) under the `stdev` key; presence of the key and its defining
  equation are thereby preserved exactly.
* `Dyn`     — dynamic Python values (the heterogeneous dicts the analyzer
  builds: schema nodes, stats dicts, example lists).
* `JsonSchemaAnalyzer` (`analyzeJson`, `analyzeObject`,
  `computeArrayStats`, `computeValueStats`, `getExamples`),
* the visibility filter (`filterJsonByVisibility`),
* path addressing (`nodePaths` for the schema-tree item paths,
  `getSchemaAtPath` for `_get_schema_at_path`),
* the jq syntax fixer (`fixJqSyntax`) over `List Char`,
* the hidden-path-set lifecycle of `JsonViewerWindow` as a step function.

`random.sample` (used for string-array examples) is modelled by an
explicit sampler argument `g : Nat → Nat → List Nat`; a concrete run of
the program corresponds to one sampler satisfying `ValidSampler`.
-/

namespace AskJson

/-- A parsed JSON value (the shape `json.loads` produces).  Numbers are
modelled as integers; Python `bool` is a distinct constructor because the
analyzer's `isinstance` tests distinguish it (while `isinstance(True, int)`
is true, which `isInstOfTypeOf` reproduces). -/
inductive JValue where
  | null : JValue
  | bool : Bool → JValue
  | num  : Int → JValue
  | str  : String → JValue
  | arr  : List JValue → JValue
  | obj  : List (String × JValue) → JValue
deriving Repr

namespace JValue

/-- Size measure used for recursion over the nested inductive. -/
def size : JValue → Nat
  | .null => 1
  | .bool _ => 1
  | .num _ => 1
  | .str _ => 1
  | .arr xs => 1 + sizeList xs
  | .obj fs => 1 + sizeFields fs
where
  sizeList : List JValue → Nat
    | [] => 0
    | x :: xs => size x + sizeList xs
  sizeFields : List (String × JValue) → Nat
    | [] => 0
    | (_, v) :: fs => size v + sizeFields fs

theorem size_positive (v : JValue) : 0 < v.size := by
  cases v <;> simp only [size] <;> omega

theorem size_lt_of_mem_arr {x : JValue} {xs : List JValue} (h : x ∈ xs) :
    x.size < (JValue.arr xs).size := by
  simp only [size]
  induction xs with
  | nil => cases h
  | cons y ys ih =>
      rcases List.mem_cons.mp h with rfl | h'
      · simp [size.sizeList]; omega
      · have := ih h'
        simp [size.sizeList] at *
        omega

theorem size_lt_of_mem_obj {k : String} {v : JValue}
    {fs : List (String × JValue)} (h : (k, v) ∈ fs) :
    v.size < (JValue.obj fs).size := by
  simp only [size]
  induction fs with
  | nil => cases h
  | cons p ps ih =>
      rcases List.mem_cons.mp h with h' | h'
      · cases h'
        simp [size.sizeFields]
        have := size_positive v
        omega
      · have := ih h'
        simp [size.sizeFields] at *
        omega

/-- A membership-based induction principle for `JValue` (the nested lists
are handled through `∈`). -/
theorem memInduction (motive : JValue → Prop)
    (hnull : motive .null)
    (hbool : ∀ b, motive (.bool b))
    (hnum : ∀ n, motive (.num n))
    (hstr : ∀ s, motive (.str s))
    (harr : ∀ xs, (∀ x ∈ xs, motive x) → motive (.arr xs))
    (hobj : ∀ fs, (∀ p ∈ fs, motive (Prod.snd p)) → motive (.obj fs)) :
    ∀ v, motive v := by
  have main : ∀ n v, JValue.size v = n → motive v := by
    intro n
    induction n using Nat.strong_induction_on with
    | _ n ih =>
      intro v hv
      match v with
      | .null => exact hnull
      | .bool b => exact hbool b
      | .num m => exact hnum m
      | .str s => exact hstr s
      | .arr xs =>
          exact harr xs fun x hx =>
            ih x.size (hv ▸ size_lt_of_mem_arr hx) x rfl
      | .obj fs =>
          refine hobj fs fun p hp => ?_
          have hlt : p.2.size < (JValue.obj fs).size := by
            have hmem : (p.1, p.2) ∈ fs := by simpa using hp
            exact size_lt_of_mem_obj hmem
          exact ih p.2.size (hv ▸ hlt) p.2 rfl
  exact fun v => main v.size v rfl

end JValue

/-- A dynamic Python value: the analyzer builds heterogeneous dicts
(schema nodes, stats dicts) whose values are strings, bools, ints,
exact rationals, JSON values, key/value pairs, lists and nested dicts. -/
inductive Dyn where
  | s (v : String)
  | b (v : Bool)
  | n (v : Nat)
  | q (v : Rat)
  | j (v : JValue)
  | pair (k : String) (v : JValue)
  | list (xs : List Dyn)
  | dict (xs : List (String × Dyn))
deriving Repr

/-- First-occurrence association lookup (Python `d[k]` / `k in d`). -/
def lookupD : List (String × Dyn) → String → Option Dyn
  | [], _ => none
  | (k, v) :: rest, key => if k = key then some v else lookupD rest key

/-- `k in d` for a `Dyn` dict (false on non-dicts). -/
def Dyn.hasKey : Dyn → String → Bool
  | .dict xs, k => (lookupD xs k).isSome
  | _, _ => false

/-- `d[k]` for a `Dyn` dict. -/
def Dyn.lookup : Dyn → String → Option Dyn
  | .dict xs, k => lookupD xs k
  | _, _ => none

/-- `list(d.keys())` for a `Dyn` dict. -/
def Dyn.keys : Dyn → List String
  | .dict xs => xs.map Prod.fst
  | _ => []

def Dyn.getS : Dyn → Option String | .s v => some v | _ => none
def Dyn.getB : Dyn → Option Bool | .b v => some v | _ => none
def Dyn.getN : Dyn → Option Nat | .n v => some v | _ => none
def Dyn.getQ : Dyn → Option Rat | .q v => some v | _ => none
def Dyn.getJ : Dyn → Option JValue | .j v => some v | _ => none

/-! ## Python type semantics -/

/-- `type(v).__name__` (JSON ints and floats are collapsed to `int`; see
the header note on the integer fragment). -/
def pyTypeName : JValue → String
  | .null => "NoneType"
  | .bool _ => "bool"
  | .num _ => "int"
  | .str _ => "str"
  | .arr _ => "list"
  | .obj _ => "dict"

/-- `isinstance(y, type(x))`.  Python's `bool` is a subclass of `int`, so
a bool is an instance of an int's type but not conversely. -/
def isInstOfTypeOf (y x : JValue) : Bool :=
  match x, y with
  | .null, .null => true
  | .bool _, .bool _ => true
  | .num _, .num _ => true
  | .num _, .bool _ => true
  | .str _, .str _ => true
  | .arr _, .arr _ => true
  | .obj _, .obj _ => true
  | _, _ => false

/-- `isinstance(v, (int, float))` — true for bools as well. -/
def isInstNum : JValue → Bool
  | .num _ => true
  | .bool _ => true
  | _ => false

/-- `isinstance(v, str)`. -/
def isInstStr : JValue → Bool
  | .str _ => true
  | _ => false

/-- `isinstance(v, bool)`. -/
def isInstBool : JValue → Bool
  | .bool _ => true
  | _ => false

/-- `v is None`. -/
def isNone : JValue → Bool
  | .null => true
  | _ => false

/-- The numeric value of a number or bool (`True == 1`, `False == 0`). -/
def toQ : JValue → Rat
  | .num n => (n : Rat)
  | .bool b => if b then 1 else 0
  | _ => 0

/-- The payload of a string value. -/
def strVal : JValue → String
  | .str s => s
  | _ => ""

/-! ## Numeric statistics (`statistics` module on integer data) -/

/-- `min` over the tail given a current minimum: Python keeps the first
element among equals. -/
def pyMinFold : JValue → List JValue → JValue
  | m, [] => m
  | m, y :: ys => if toQ y < toQ m then pyMinFold y ys else pyMinFold m ys

/-- `max` over the tail given a current maximum (keeps the first among
equals). -/
def pyMaxFold : JValue → List JValue → JValue
  | m, [] => m
  | m, y :: ys => if toQ m < toQ y then pyMaxFold y ys else pyMaxFold m ys

/-- `min(arr)` for nonempty numeric `arr` (`.null` on empty). -/
def pyListMin : List JValue → JValue
  | [] => .null
  | x :: xs => pyMinFold x xs

/-- `max(arr)` for nonempty numeric `arr` (`.null` on empty). -/
def pyListMax : List JValue → JValue
  | [] => .null
  | x :: xs => pyMaxFold x xs

/-- `statistics.mean` — exact on integer/bool data. -/
def pyMean (xs : List JValue) : Rat :=
  (xs.map toQ).sum / (xs.length : Rat)

/-- Stable insertion into an ascending-sorted list (ties keep the earlier
element first), matching Python's stable `sorted`. -/
def insertAscNum (x : JValue) : List JValue → List JValue
  | [] => [x]
  | y :: ys => if toQ x ≤ toQ y then x :: y :: ys else y :: insertAscNum x ys

/-- Python's stable ascending sort by numeric value. -/
def sortAscNum : List JValue → List JValue
  | [] => []
  | x :: xs => insertAscNum x (sortAscNum xs)

/-- `statistics.median`: middle element of the stable sort for odd length
(the element itself), average of the two middle elements for even length. -/
def pyMedian (xs : List JValue) : Dyn :=
  let s := sortAscNum xs
  let n := s.length
  if n % 2 = 1 then Dyn.j (s.getD (n / 2) .null)
  else Dyn.q ((toQ (s.getD (n / 2 - 1) .null) + toQ (s.getD (n / 2) .null)) / 2)

/-- The exact sample variance `Σ (x - mean)² / (n - 1)`; this is the
square of `statistics.stdev`, which the embedding stores under the
`stdev` key (the float square root is irrational). -/
def sampleVariance (xs : List JValue) : Rat :=
  ((xs.map (fun x => (toQ x - pyMean xs) ^ 2)).sum) / ((xs.length : Rat) - 1)

/-! ## String frequency statistics (`collections.Counter`) -/

/-- Number of occurrences of `s` in `arr` (exact string equality). -/
def countOcc (arr : List String) (s : String) : Nat :=
  (arr.filter (fun y => y = s)).length

/-- The distinct values of a list in first-encounter order (a `Counter`'s
key order, since Python dicts preserve insertion order). -/
def distinctFirst : List String → List String
  | [] => []
  | x :: xs => x :: distinctFirst (xs.filter (fun y => ¬ y = x))
termination_by l => l.length
decreasing_by
  simp only [List.length_cons]
  exact Nat.lt_succ_of_le (List.length_filter_le _ _)

/-- `list(Counter(arr).items())`: distinct values in first-encounter
order, each with its count. -/
def counterItems (arr : List String) : List (String × Nat) :=
  (distinctFirst arr).map (fun s => (s, countOcc arr s))

/-- Stable insertion into a count-descending list: the inserted element
(originally leftmost) goes before elements of equal count. -/
def insertDescCount (x : String × Nat) :
    List (String × Nat) → List (String × Nat)
  | [] => [x]
  | y :: ys => if y.2 ≤ x.2 then x :: y :: ys else y :: insertDescCount x ys

/-- Stable descending sort by count; `Counter.most_common()` is exactly
this (`heapq.nlargest` is stable). -/
def sortDescCount : List (String × Nat) → List (String × Nat)
  | [] => []
  | x :: xs => insertDescCount x (sortDescCount xs)

/-- `Counter(arr).most_common()`: all (value, count) pairs, count
descending, ties in first-encounter order. -/
def mostCommonAll (arr : List String) : List (String × Nat) :=
  sortDescCount (counterItems arr)

/-! ## `JsonSchemaAnalyzer._compute_array_stats` -/

/-- The sampler state standing in for Python's global `random` module:
`g n k` is the outcome of `random.sample(range(1, n-1), k)` for an array
of length `n`. -/
def Sampler : Type := Nat → Nat → List Nat

/-- A sampler is valid when each outcome could have been produced by
`random.sample(range(1, n-1), k)`: `k` distinct indices strictly between
`0` and `n-1`. -/
def ValidSampler (g : Sampler) : Prop :=
  ∀ n k, k ≤ n - 2 →
    (g n k).length = k ∧ (g n k).Nodup ∧ ∀ i ∈ g n k, 1 ≤ i ∧ i + 1 < n

/-- A concrete valid sampler (`[1, 2, …, k]`), used to instantiate
closed evaluations. -/
def defaultSampler : Sampler := fun _ k => (List.range k).map (· + 1)

/-- Renders a `(value, count)` pair as the dict
`{'value': …, 'count': …}` built for `most_common`/`least_common`. -/
def freqEntry (p : String × Nat) : Dyn :=
  Dyn.dict [("value", Dyn.j (.str p.1)), ("count", Dyn.n p.2)]

/-- `JsonSchemaAnalyzer._compute_array_stats`, with dict entries in the
exact insertion order of the source.  The numeric branch requires every
element to be `isinstance(item, type(arr[0]))` and
`isinstance(item, (int, float))`; the string branch is its `elif`. -/
def computeArrayStats (g : Sampler) (arr : List JValue) : Dyn :=
  let base := [("count", Dyn.n arr.length)]
  match arr with
  | [] => Dyn.dict base
  | x :: _ =>
    let allSame := arr.all (fun y => isInstOfTypeOf y x)
    let base := base ++ [("uniform_type", Dyn.b allSame)]
    if allSame ∧ arr.all isInstNum then
      let numeric := base ++
        [("min", Dyn.j (pyListMin arr)), ("max", Dyn.j (pyListMax arr)),
         ("mean", Dyn.q (pyMean arr))] ++
        (if 1 < arr.length then
          [("median", pyMedian arr), ("stdev", Dyn.q (sampleVariance arr))]
         else []) ++
        (if 5 < arr.length then
          [("examples", Dyn.list
            [Dyn.j (arr.getD 0 .null), Dyn.j (arr.getLast?.getD .null),
             Dyn.j (arr.getD (arr.length / 2) .null)])]
         else [])
      Dyn.dict numeric
    else if allSame ∧ arr.all isInstStr then
      let ss := arr.map strVal
      let lengths := ss.map String.length
      let strStats := base ++
        [("min_length", Dyn.n (lengths.foldr min (lengths.getD 0 0))),
         ("max_length", Dyn.n (lengths.foldr max 0)),
         ("avg_length", Dyn.q ((lengths.map (Nat.cast)).sum / (arr.length : Rat)))] ++
        (if arr.length < 1000 then
          (if (mostCommonAll ss).take 5 ≠ [] then
            [("most_common", Dyn.list (((mostCommonAll ss).take 5).map freqEntry))]
           else []) ++
          (if 5 < (counterItems ss).length then
            [("least_common", Dyn.list (((mostCommonAll ss).reverse.take 5).map freqEntry))]
           else [])
         else []) ++
        (if 5 < arr.length then
          [("examples", Dyn.list
            (([0, arr.length - 1] ++
              (if 3 < arr.length then g arr.length (min 3 (arr.length - 2)) else [])).map
              (fun i => Dyn.j (arr.getD i .null))))]
         else [])
      Dyn.dict strStats
    else
      Dyn.dict base

/-! ## `JsonSchemaAnalyzer._compute_value_stats` and `_get_examples` -/

/-- First-occurrence lookup in a JSON object's field list
(`parent_obj[key]`). -/
def lookupJ : List (String × JValue) → String → Option JValue
  | [], _ => none
  | (k, v) :: rest, key => if k = key then some v else lookupJ rest key

/-- `JsonSchemaAnalyzer._compute_value_stats(key, value, parent_obj)`.
Branch order matters: booleans satisfy the `(int, float)` test first, so
the dedicated bool branch is dead code; the embedding keeps it.  In the
numeric branch the source takes `min`/`max` of the singleton
`[parent_obj[key]]`. -/
def computeValueStats (key : String) (value : JValue)
    (parentFields : List (String × JValue)) : Dyn :=
  let base := [("type", Dyn.s (pyTypeName value))]
  if isInstNum value then
    let withVal := base ++ [("value", Dyn.j value)]
    if !parentFields.isEmpty && (lookupJ parentFields key).isSome then
      let v0 := (lookupJ parentFields key).getD .null
      Dyn.dict (withVal ++ [("min", Dyn.j v0), ("max", Dyn.j v0)])
    else Dyn.dict withVal
  else if isInstStr value then
    let sv := strVal value
    Dyn.dict (base ++ [("length", Dyn.n sv.length),
      ("preview", Dyn.s (if 50 < sv.length then sv.take 50 ++ "..." else sv))])
  else if isInstBool value then
    Dyn.dict (base ++ [("value", Dyn.j value)])
  else if isNone value then
    Dyn.dict (base ++ [("value", Dyn.s "null")])
  else
    Dyn.dict base

/-- Which branch of `_compute_value_stats` runs for a given value (used
to state the dead-code fact about the bool branch). -/
inductive ValueStatsBranch where
  | numeric | string | boolDead | nullCase | fallthrough
deriving Repr, DecidableEq

/-- The branch `_compute_value_stats` takes, following the source's
`if`/`elif` order. -/
def valueStatsBranch (value : JValue) : ValueStatsBranch :=
  if isInstNum value then .numeric
  else if isInstStr value then .string
  else if isInstBool value then .boolDead
  else if isNone value then .nullCase
  else .fallthrough

/-- `JsonSchemaAnalyzer._get_examples`. -/
def getExamples : JValue → Dyn
  | .arr xs =>
      if xs.length ≤ 3 then Dyn.list (xs.map Dyn.j)
      else Dyn.list [Dyn.j (xs.getD 0 .null),
        Dyn.j (xs.getD (xs.length / 2) .null),
        Dyn.j (xs.getLast?.getD .null)]
  | .obj fs =>
      if fs.length ≤ 3 then Dyn.list (fs.map fun p => Dyn.pair p.1 p.2)
      else Dyn.list ((fs.take 3).map fun p => Dyn.pair p.1 p.2)
  | v => Dyn.list [Dyn.j v]

/-! ## `JsonSchemaAnalyzer._analyze_object` / `analyze_json` -/

/-- `element_type` of a nested array: `type(value[0]).__name__` when the
array is nonempty and every element is an instance of the first
element's type, else `'mixed'`. -/
def elementTypeOf : List JValue → String
  | [] => "mixed"
  | x :: xs =>
      if (x :: xs).all (fun y => isInstOfTypeOf y x) then pyTypeName x
      else "mixed"

mutual

/-- The schema node `JsonSchemaAnalyzer._analyze_object` builds for one
`(key, value)` entry; `allFields` is the whole dict (the `obj` argument
the source passes to `_compute_value_stats` as `parent_obj`).  Nested
dicts recurse; arrays get `type`/`element_type`/`stats` and — when the
first element is a dict — `properties` from that first element only;
scalars get a leaf node. -/
def analyzeNode (g : Sampler) (allFields : List (String × JValue))
    (key : String) : JValue → Dyn
  | .obj fs =>
      Dyn.dict [("type", Dyn.s "object"),
        ("properties", Dyn.dict (analyzeFields g fs fs))]
  | .arr xs =>
      let base := [("type", Dyn.s "array"),
        ("element_type", Dyn.s (elementTypeOf xs)),
        ("stats", computeArrayStats g xs)]
      match xs with
      | .obj ffs :: _ =>
          Dyn.dict (base ++
            [("properties", Dyn.dict (analyzeFields g ffs ffs))])
      | _ => Dyn.dict base
  | v =>
      Dyn.dict [("type", Dyn.s (pyTypeName v)), ("value", Dyn.j v),
        ("stats", computeValueStats key v allFields),
        ("examples", getExamples v)]
termination_by v => 2 * JValue.size v
decreasing_by
  all_goals
    simp only [JValue.size.sizeFields, JValue.size, JValue.size.sizeList]
  all_goals omega

/-- `JsonSchemaAnalyzer._analyze_object`'s iteration over the fields of
a dict, in insertion order. -/
def analyzeFields (g : Sampler) (allFields : List (String × JValue)) :
    List (String × JValue) → List (String × Dyn)
  | [] => []
  | (key, value) :: rest =>
      (key, analyzeNode g allFields key value) ::
        analyzeFields g allFields rest
termination_by l => 2 * JValue.size.sizeFields l + 1
decreasing_by
  all_goals
    simp only [JValue.size.sizeFields, JValue.size, JValue.size.sizeList]
  all_goals
    first
      | omega
      | (rename_i v
         have := JValue.size_positive v
         omega)

end

/-- `JsonSchemaAnalyzer._analyze_object(obj)`. -/
def analyzeObject (g : Sampler) (fs : List (String × JValue)) :
    List (String × Dyn) :=
  analyzeFields g fs fs

/-- The `if key not in combined_schema` merge of `analyze_json`'s array
branch: keys already present win; new keys are appended in encounter
order. -/
def mergeFirstWins (acc : List (String × Dyn)) :
    List (String × Dyn) → List (String × Dyn)
  | [] => acc
  | (k, v) :: rest =>
      if (lookupD acc k).isSome then mergeFirstWins acc rest
      else mergeFirstWins (acc ++ [(k, v)]) rest

/-- The combined schema `analyze_json` folds over the first sampled
elements: dict elements contribute their `_analyze_object` schema
first-wins; non-dict elements are skipped. -/
def combineSchemas (g : Sampler) (items : List JValue) :
    List (String × Dyn) :=
  items.foldl
    (fun acc item =>
      match item with
      | .obj fs => mergeFirstWins acc (analyzeObject g fs)
      | _ => acc) []

/-- `JsonSchemaAnalyzer.analyze_json`: dict root → `_analyze_object`;
nonempty list root → first-wins union over the first 10 elements plus
`__array_stats` over the whole array; anything else → `{}`. -/
def analyzeJson (g : Sampler) : JValue → Dyn
  | .obj fs => Dyn.dict (analyzeObject g fs)
  | .arr xs =>
      if xs.isEmpty then Dyn.dict []
      else Dyn.dict (combineSchemas g (xs.take 10) ++
        [("__array_stats", computeArrayStats g xs)])
  | _ => Dyn.dict []

/-! ## Path addressing: tree item paths and `_get_schema_at_path` -/

/-- Size measure on dynamic values. -/
def Dyn.size : Dyn → Nat
  | .list xs => 1 + sizeItems xs
  | .dict xs => 1 + sizeEntries xs
  | _ => 1
where
  sizeItems : List Dyn → Nat
    | [] => 0
    | x :: xs => size x + sizeItems xs
  sizeEntries : List (String × Dyn) → Nat
    | [] => 0
    | (_, v) :: xs => size v + sizeEntries xs

theorem Dyn.size_pos (d : Dyn) : 0 < d.size := by
  cases d <;> simp only [Dyn.size] <;> omega

theorem lookupD_size {xs : List (String × Dyn)} {k : String} {v : Dyn}
    (h : lookupD xs k = some v) : v.size ≤ Dyn.size.sizeEntries xs := by
  induction xs with
  | nil => simp [lookupD] at h
  | cons p rest ih =>
      obtain ⟨k0, v0⟩ := p
      simp only [lookupD] at h
      by_cases hk : k0 = k
      · simp only [if_pos hk] at h
        cases h
        simp only [Dyn.size.sizeEntries]
        omega
      · simp only [if_neg hk] at h
        have := ih h
        simp only [Dyn.size.sizeEntries]
        omega

/-- `schema['type'] == t` for a schema dict. -/
def dynTypeIs (xs : List (String × Dyn)) (t : String) : Bool :=
  match lookupD xs "type" with
  | some (Dyn.s u) => u = t
  | _ => false

/-- `schema['properties'].items()` — the entries of the `properties`
dict (empty when absent or not a dict). -/
def propsEntries (xs : List (String × Dyn)) : List (String × Dyn) :=
  match lookupD xs "properties" with
  | some (Dyn.dict props) => props
  | _ => []

theorem propsEntries_size_lt {xs : List (String × Dyn)}
    (h : (lookupD xs "properties").isSome = true) :
    Dyn.size.sizeEntries (propsEntries xs) < Dyn.size.sizeEntries xs := by
  rcases hl : lookupD xs "properties" with _ | v
  · rw [hl] at h; simp at h
  · have hle := lookupD_size hl
    have hv := Dyn.size_pos v
    cases v with
    | dict props =>
        simp only [propsEntries, hl]
        simp only [Dyn.size] at hle
        omega
    | s u => simp only [propsEntries, hl, Dyn.size.sizeEntries]; omega
    | b u => simp only [propsEntries, hl, Dyn.size.sizeEntries]; omega
    | n u => simp only [propsEntries, hl, Dyn.size.sizeEntries]; omega
    | q u => simp only [propsEntries, hl, Dyn.size.sizeEntries]; omega
    | j u => simp only [propsEntries, hl, Dyn.size.sizeEntries]; omega
    | pair a u => simp only [propsEntries, hl, Dyn.size.sizeEntries]; omega
    | list u => simp only [propsEntries, hl, Dyn.size.sizeEntries]; omega

/-- How a tree item labelled `key` extends its parent's
`_get_item_path` path: the label is appended unless it is one of the two
texts `_get_item_path` skips (`"[Root]"` and `"elements"`) — the skip is
by label text, so it also swallows genuine document keys with those
names. -/
def pathExtend (p : List String) (key : String) : List String :=
  if key = "[Root]" || key = "elements" then p else p ++ [key]

mutual

/-- The `(path, schema-node)` pairs `_add_schema_item` creates for one
entry: the item itself at `pathExtend parentPath key` (the synthetic
`"elements"` item under an array is one of the labels `_get_item_path`
skips, so an array's element properties sit at the array's own extended
path), plus its recursively added children. -/
def addSchemaItemPaths (p : List String) (key : String) (node : Dyn) :
    List (List String × Dyn) :=
  match node with
  | Dyn.dict xs =>
      if (lookupD xs "type").isSome then
        (pathExtend p key, node) ::
          (if dynTypeIs xs "object" && (lookupD xs "properties").isSome then
            addSchemaItemsPaths (pathExtend p key) (propsEntries xs)
          else if dynTypeIs xs "array" && (lookupD xs "element_type").isSome
              && (lookupD xs "properties").isSome then
            addSchemaItemsPaths (pathExtend p key) (propsEntries xs)
          else [])
      else [(pathExtend p key, node)]
  | _ => [(pathExtend p key, node)]
termination_by Dyn.size node
decreasing_by
  all_goals
    rename_i h
    simp only [Bool.and_eq_true] at h
    have hs : (lookupD xs "properties").isSome = true := by tauto
    have := propsEntries_size_lt hs
    simp only [Dyn.size]
    omega

/-- `_add_schema_item` applied to each entry of a properties dict. -/
def addSchemaItemsPaths (p : List String) :
    List (String × Dyn) → List (List String × Dyn)
  | [] => []
  | (k, v) :: rest =>
      addSchemaItemPaths p k v ++ addSchemaItemsPaths p rest
termination_by l => Dyn.size.sizeEntries l + 1
decreasing_by
  all_goals simp only [Dyn.size.sizeEntries]
  · omega
  · have := Dyn.size_pos v
    omega

end

/-- The tree paths of all schema nodes `update_schema_tree` displays:
for an array root the `__array_stats` marker entry is skipped (and the
`[Root]`/`Count` rows carry no schema node); every remaining entry goes
through `_add_schema_item` starting from the empty path. -/
def nodePaths (schemaInfo : Dyn) : List (List String × Dyn) :=
  match schemaInfo with
  | Dyn.dict xs =>
      if (lookupD xs "__array_stats").isSome then
        addSchemaItemsPaths [] (xs.filter (fun kv => ¬ kv.1 = "__array_stats"))
      else addSchemaItemsPaths [] xs
  | _ => []

/-- One step of `_get_schema_at_path`'s loop body: direct key lookup
first, then the `properties` of the current node, then the (dead)
array-specific `properties` branch; `none` when no rule applies. -/
def resolveStep (schema : Dyn) (segment : String) : Option Dyn :=
  match schema with
  | .dict xs =>
      match lookupD xs segment with
      | some v => some v
      | none =>
          match lookupD xs "properties" with
          | some props =>
              if props.hasKey segment then props.lookup segment
              else if dynTypeIs xs "array" then none
              else none
          | none => none
  | _ => none

/-- The loop of `JsonSchemaViewer._get_schema_at_path`, carrying the
running index: at index 0 a root schema containing `__array_stats` is
skipped over (`continue`) without consuming any lookup. -/
def getSchemaLoop : Dyn → Nat → List String → Option Dyn
  | schema, _, [] => some schema
  | schema, i, seg :: rest =>
      if i = 0 && schema.hasKey "__array_stats" then
        getSchemaLoop schema (i + 1) rest
      else
        match resolveStep schema seg with
        | some next => getSchemaLoop next (i + 1) rest
        | none => none

/-- `JsonSchemaViewer._get_schema_at_path(path)`. -/
def getSchemaAtPath (schemaInfo : Dyn) (path : List String) : Option Dyn :=
  if path.isEmpty then some schemaInfo
  else getSchemaLoop schemaInfo 0 path

/-! ## `ChatWidget._fix_jq_syntax` (over `List Char`; ASCII fragment of
Python's `\s` and `\w`) -/

/-- `\s` (ASCII fragment). -/
def pyIsSpace (c : Char) : Bool :=
  c = ' ' || c = '\t' || c = '\n' || c = '\r' ||
    c = Char.ofNat 11 || c = Char.ofNat 12

/-- `\w` (ASCII fragment). -/
def isWordChar (c : Char) : Bool :=
  c.isAlpha || c.isDigit || c = '_'

/-- A character of the class `[\.\w+]`. -/
def isFieldChar (c : Char) : Bool :=
  isWordChar c || c = '.' || c = '+'

/-- Consume an exact literal, returning the remainder. -/
def stripLit : List Char → List Char → Option (List Char)
  | [], l => some l
  | _ :: _, [] => none
  | c :: cs, x :: xs => if x = c then stripLit cs xs else none

/-- Consume one-or-more whitespace greedily (`\s+`); the characters that
follow it in every pattern below are never whitespace, so greedy matching
without backtracking is exact. -/
def stripWS1 (l : List Char) : Option (List Char) :=
  match l with
  | c :: rest => if pyIsSpace c then some (rest.dropWhile pyIsSpace) else none
  | [] => none

/-- The capture of `(\.\w+[\.\w+]*)` at the head of `l`: a dot, then a
maximal run of `[\w.+]` whose first character is a word character (the
group ends the pattern, so the greedy run is exact). -/
def matchField (l : List Char) : Option (List Char) :=
  match l with
  | '.' :: c :: rest =>
      if isWordChar c then some ('.' :: c :: rest.takeWhile isFieldChar)
      else none
  | _ => none

/-- `re.search`: try the matcher at every start position, leftmost
first. -/
def firstSearch {α : Type} (m : List Char → Option α) : List Char → Option α
  | [] => m []
  | l@(_ :: rest) =>
      match m l with
      | some r => some r
      | none => firstSearch m rest

/-- Matcher for `sort\s+-r\s+--key=(\.\w+[\.\w+]*)` at one position. -/
def matchSortRKey (l : List Char) : Option (List Char) :=
  (stripLit "sort".data l).bind fun l1 =>
    (stripWS1 l1).bind fun l2 =>
      (stripLit "-r".data l2).bind fun l3 =>
        (stripWS1 l3).bind fun l4 =>
          (stripLit "--key=".data l4).bind matchField

/-- Matcher for `sort\s+--key=(\.\w+[\.\w+]*)` at one position. -/
def matchSortKey (l : List Char) : Option (List Char) :=
  (stripLit "sort".data l).bind fun l1 =>
    (stripWS1 l1).bind fun l2 =>
      (stripLit "--key=".data l2).bind matchField

/-- Matcher for `sort\s+-r\b` at one position (`\b` after `r`: end of
input or a non-word character). -/
def matchSortRB (l : List Char) : Option Unit :=
  (stripLit "sort".data l).bind fun l1 =>
    (stripWS1 l1).bind fun l2 =>
      (stripLit "-r".data l2).bind fun l3 =>
        match l3 with
        | [] => some ()
        | c :: _ => if isWordChar c then none else some ()

/-- Matcher for `sort\s+-r\s+(\.\w+[\.\w+]*)` at one position. -/
def matchSortRField (l : List Char) : Option (List Char) :=
  (stripLit "sort".data l).bind fun l1 =>
    (stripWS1 l1).bind fun l2 =>
      (stripLit "-r".data l2).bind fun l3 =>
        (stripWS1 l3).bind matchField

/-- `pat in query` (substring containment). -/
def containsTok (pat : String) (q : List Char) : Bool :=
  (firstSearch (stripLit pat.data) q).isSome

theorem stripLit_length {pat l r : List Char}
    (h : stripLit pat l = some r) : r.length + pat.length = l.length := by
  induction pat generalizing l with
  | nil => simp [stripLit] at h; simp [h]
  | cons c cs ih =>
      match l with
      | [] => simp [stripLit] at h
      | x :: xs =>
          simp only [stripLit] at h
          by_cases hx : x = c
          · simp only [if_pos hx] at h
            have := ih h
            simp only [List.length_cons]
            omega
          · simp [if_neg hx] at h

/-- Python `str.replace(old, new)`: replace every (non-overlapping,
leftmost-first) occurrence.  (The `old = []` case diverges from Python's
empty-separator semantics; the program only ever replaces nonempty
literals.) -/
def replaceAll (old new : List Char) : List Char → List Char
  | [] => []
  | c :: rest =>
      if hs : (stripLit old (c :: rest)).isSome ∧ old ≠ [] then
        new ++ replaceAll old new ((stripLit old (c :: rest)).get hs.1)
      else c :: replaceAll old new rest
termination_by l => l.length
decreasing_by
  · obtain ⟨h1, h2⟩ := hs
    obtain ⟨r, hr⟩ := Option.isSome_iff_exists.mp h1
    have hlen := stripLit_length hr
    have hold : 1 ≤ old.length := by
      cases old with
      | nil => exact absurd rfl h2
      | cons a t => simp
    simp only [hr, Option.get_some, List.length_cons] at *
    omega
  · simp

/-- `ChatWidget._fix_jq_syntax`: the `--key=` block (reversed form first,
else the plain form), then the `sort -r` block on the intermediate
result. -/
def fixJqSyntax (q : List Char) : List Char :=
  let q1 :=
    if containsTok "--key=" q then
      match firstSearch matchSortRKey q with
      | some field =>
          replaceAll ("sort -r --key=".data ++ field)
            ("sort_by(".data ++ field ++ ") | reverse".data) q
      | none =>
          match firstSearch matchSortKey q with
          | some field =>
              replaceAll ("sort --key=".data ++ field)
                ("sort_by(".data ++ field ++ ")".data) q
          | none => q
    else q
  if (firstSearch matchSortRB q1).isSome then
    match firstSearch matchSortRField q1 with
    | some field =>
        replaceAll ("sort -r ".data ++ field)
          ("sort_by(".data ++ field ++ ") | reverse".data) q1
    | none => replaceAll "sort -r".data "sort | reverse".data q1
  else q1

/-! ## The hidden-path set lifecycle (`JsonViewerWindow`) -/

/-- The `JsonViewerWindow` state the hidden-path claims are about. -/
structure ViewerState where
  hiddenPaths : List (List String)
deriving Repr

/-- The three events that touch `self.hidden_paths`: an explicit eye
toggle, loading a file, and a successful jq query result. -/
inductive ViewerEvent where
  | toggleVisibility (path : List String) (isVisible : Bool)
  | loadFile (doc : JValue)
  | queryResult (result : JValue)

/-- Python `set.add`. -/
def setAdd (H : List (List String)) (p : List String) : List (List String) :=
  if p ∈ H then H else H ++ [p]

/-- Python `set.discard`. -/
def setDiscard (H : List (List String)) (p : List String) :
    List (List String) :=
  H.filter (fun q => ¬ q = p)

/-- The state transition of `JsonViewerWindow`:
`toggle_attribute_visibility` adds or discards the toggled path;
`load_json_file` resets `hidden_paths` to the empty set;
`run_jq_query` filters with the existing set and never mutates it. -/
def viewerStep : ViewerState → ViewerEvent → ViewerState
  | st, .toggleVisibility p vis =>
      if vis then ⟨setDiscard st.hiddenPaths p⟩ else ⟨setAdd st.hiddenPaths p⟩
  | _, .loadFile _ => ⟨[]⟩
  | st, .queryResult _ => st

/-! ## Visibility filtering (`JsonViewerWindow.filter_json_by_visibility`) -/

/-- One recursive pass of `_filter_recursive` from
`filter_json_by_visibility`: object keys whose accumulated path lies in the
hidden set are dropped (their subtrees unvisited); arrays reuse the current
path for every element; scalars pass through. -/
def filterRec (H : List (List String)) : JValue → List String → JValue
  | .obj fields, p => .obj (filterFields fields p)
  | .arr xs, p => .arr (filterList xs p)
  | v, _ => v
where
  filterList : List JValue → List String → List JValue
    | [], _ => []
    | x :: xs, p => filterRec H x p :: filterList xs p
  filterFields : List (String × JValue) → List String → List (String × JValue)
    | [], _ => []
    | (k, v) :: rest, p =>
        if (p ++ [k]) ∈ H then filterFields rest p
        else (k, filterRec H v (p ++ [k])) :: filterFields rest p

/-- `JsonViewerWindow.filter_json_by_visibility`: returns the data
unchanged when the hidden set is empty, otherwise runs the recursive
filter from the root path. -/
def filterJsonByVisibility (H : List (List String)) (v : JValue) : JValue :=
  if H = [] then v else filterRec H v []

/-! ## Derived definitions used by the specification statements -/

/-- A scalar JSON value (not an array, not an object). -/
def isScalar : JValue → Bool
  | .arr _ => false
  | .obj _ => false
  | _ => true

/-- A JSON number proper (not a bool). -/
def isStrictNum : JValue → Bool
  | .num _ => true
  | _ => false

/-- `a.orElse b` on options, tailored for rewriting. -/
def oElse (a b : Option Dyn) : Option Dyn :=
  match a with
  | some v => some v
  | none => b

/-- The loop of `_get_schema_at_path` from index 1 onwards (the
`__array_stats` special case only fires at index 0): a plain fold of
`resolveStep`. -/
def resolveFrom : Dyn → List String → Option Dyn
  | d, [] => some d
  | d, seg :: rest =>
      match resolveStep d seg with
      | some next => resolveFrom next rest
      | none => none

/-- The specification's reading of `analyze_json`'s array branch: the
child schema for key `k` comes from the first sampled element that is a
dict and defines `k`. -/
def firstWinsLookup (g : Sampler) : List JValue → String → Option Dyn
  | [], _ => none
  | .obj fs :: rest, k =>
      match lookupD (analyzeObject g fs) k with
      | some v => some v
      | none => firstWinsLookup g rest k
  | _ :: rest, k => firstWinsLookup g rest k

/-- The dict keys the analyzer itself writes into schema nodes (a
document key equal to one of these can shadow schema structure during
path resolution), plus the two tree labels `"[Root]"` and `"elements"`
that `_get_item_path` drops from every path — a document key with one of
those names is silently omitted from its own path. -/
def reservedKeys : List String :=
  ["type", "properties", "element_type", "stats", "value", "examples",
   "__array_stats", "[Root]", "elements"]

/-- Document keys are distinct (as `json.loads` guarantees) and avoid
the analyzer's reserved schema keys, at every nesting level. -/
def keysOK : JValue → Bool
  | .obj fs =>
      decide ((fs.map Prod.fst).Nodup) && keysOKFields fs
  | .arr xs => keysOKList xs
  | _ => true
where
  keysOKList : List JValue → Bool
    | [] => true
    | x :: xs => keysOK x && keysOKList xs
  keysOKFields : List (String × JValue) → Bool
    | [] => true
    | (k, v) :: rest =>
        !(reservedKeys.contains k) && keysOK v && keysOKFields rest

/-- The value contains no uniformly-string array longer than 5 elements
(the only shape whose statistics consult the random sampler). -/
def detSafe : JValue → Bool
  | .arr xs =>
      !(decide (5 < xs.length) &&
        (match xs with
         | x :: _ => xs.all (fun y => isInstOfTypeOf y x) && xs.all isInstStr
         | [] => false)) && detSafeList xs
  | .obj fs => detSafeFields fs
  | _ => true
where
  detSafeList : List JValue → Bool
    | [] => true
    | x :: xs => detSafe x && detSafeList xs
  detSafeFields : List (String × JValue) → Bool
    | [] => true
    | (_, v) :: rest => detSafe v && detSafeFields rest

/-- An alternative valid sampler: the same interior indices as
`defaultSampler` but in the reverse selection order (`random.sample`
returns its picks in selection order, so both outcomes occur). -/
def reverseSampler : Sampler := fun _ k => ((List.range k).map (· + 1)).reverse

/-- Adjacent-pair checker: no two consecutive characters satisfy `p`. -/
def noPair (p : Char → Char → Bool) : List Char → Bool
  | a :: b :: rest => !(p a b) && noPair p (b :: rest)
  | _ => true

/-- The bad pair for the `sort\s+-r`-family patterns: a `t` followed by
whitespace. -/
def tSpacePair (a b : Char) : Bool := a = 't' && pyIsSpace b

/-- The bad pair for the `--key=` literal: two consecutive dashes. -/
def dashPair (a b : Char) : Bool := a = '-' && b = '-'

/-- The bad pair for the `-r\s+`-continuation of the `sort` patterns: an
`r` followed by whitespace. -/
def rSpacePair (a b : Char) : Bool := a = 'r' && pyIsSpace b

/-- Extract an embedded JSON integer from a dynamic value. -/
def Dyn.getNum : Dyn → Option Int
  | Dyn.j (JValue.num m) => some m
  | _ => none

/-- `isinstance(v, dict)`. -/
def isObjV : JValue → Bool
  | .obj _ => true
  | _ => false

theorem filterRec_idem (H : List (List String)) :
    ∀ v p, filterRec H (filterRec H v p) p = filterRec H v p := by
  intro v
  induction v using JValue.memInduction with
  | hnull => intro p; rfl
  | hbool b => intro p; rfl
  | hnum n => intro p; rfl
  | hstr s => intro p; rfl
  | harr xs ih =>
      intro p
      simp only [filterRec]
      congr 1
      induction xs with
      | nil => rfl
      | cons x rest ihl =>
          simp only [filterRec.filterList]
          rw [ih x (by simp) p, ihl fun y hy => ih y (by simp [hy])]
  | hobj fs ih =>
      intro p
      simp only [filterRec]
      congr 1
      induction fs with
      | nil => rfl
      | cons kv rest ihl =>
          obtain ⟨k, v⟩ := kv
          simp only [filterRec.filterFields]
          by_cases hmem : (p ++ [k]) ∈ H
          · simp only [if_pos hmem]
            exact ihl fun q hq => ih q (by simp [hq])
          · simp only [if_neg hmem, filterRec.filterFields, if_neg hmem]
            rw [ih (k, v) (by simp) (p ++ [k]),
              ihl fun q hq => ih q (by simp [hq])]

/-- C4: visibility filtering is idempotent — applying
`filter_json_by_visibility` twice with the same hidden set equals applying
it once. -/
theorem filterJsonByVisibility_idem (H : List (List String)) (v : JValue) :
    filterJsonByVisibility H (filterJsonByVisibility H v) =
      filterJsonByVisibility H v := by
  unfold filterJsonByVisibility
  by_cases h : H = []
  · simp [h]
  · simp only [if_neg h]
    exact filterRec_idem H v []

/-! ## General lookup lemmas -/

theorem lookupD_append (l1 l2 : List (String × Dyn)) (k : String) :
    lookupD (l1 ++ l2) k = oElse (lookupD l1 k) (lookupD l2 k) := by
  induction l1 with
  | nil => simp [lookupD, oElse]
  | cons p rest ih =>
      obtain ⟨k0, v0⟩ := p
      by_cases hk : k0 = k
      · simp [lookupD, hk, oElse]
      · simp [lookupD, hk, ih]

theorem all_mem_iff {α : Type} (p : α → Bool) (l : List α) :
    l.all p = true ↔ ∀ x ∈ l, p x = true := by
  simp [List.all_eq_true]

/-! ## C8: `analyze` on a top-level scalar -/

/-- C8 counterexample: `analyze_json` maps every top-level scalar to the
empty schema `{}` (the `else` branch), not to a leaf schema carrying the
literal value. -/
theorem analyzeJson_scalar_empty :
    analyzeJson defaultSampler (JValue.num 5) = Dyn.dict [] ∧
    analyzeJson defaultSampler (JValue.str "hi") = Dyn.dict [] ∧
    analyzeJson defaultSampler (JValue.bool true) = Dyn.dict [] ∧
    analyzeJson defaultSampler JValue.null = Dyn.dict [] :=
  ⟨rfl, rfl, rfl, rfl⟩

/-- C8 amended: a scalar *as an object property* gets the leaf schema
the claim describes — `type`, the literal `value`, derived `stats`, and
`examples = [value]`; the node is not empty.  (A scalar passed directly
to `analyze_json` yields `{}`.) -/
theorem analyzeNode_scalar_leaf (g : Sampler)
    (allFields : List (String × JValue)) (key : String) (v : JValue)
    (h : isScalar v = true) :
    (analyzeNode g allFields key v).lookup "type"
        = some (Dyn.s (pyTypeName v)) ∧
    (analyzeNode g allFields key v).lookup "value" = some (Dyn.j v) ∧
    (analyzeNode g allFields key v).lookup "stats"
        = some (computeValueStats key v allFields) ∧
    (analyzeNode g allFields key v).lookup "examples"
        = some (Dyn.list [Dyn.j v]) ∧
    (analyzeNode g allFields key v).keys ≠ [] := by
  cases v with
  | arr xs => simp [isScalar] at h
  | obj fs => simp [isScalar] at h
  | null =>
      refine ⟨?_, ?_, ?_, ?_, ?_⟩ <;>
        simp [analyzeNode, Dyn.lookup, lookupD, getExamples, Dyn.keys]
  | bool b =>
      refine ⟨?_, ?_, ?_, ?_, ?_⟩ <;>
        simp [analyzeNode, Dyn.lookup, lookupD, getExamples, Dyn.keys]
  | num n =>
      refine ⟨?_, ?_, ?_, ?_, ?_⟩ <;>
        simp [analyzeNode, Dyn.lookup, lookupD, getExamples, Dyn.keys]
  | str s =>
      refine ⟨?_, ?_, ?_, ?_, ?_⟩ <;>
        simp [analyzeNode, Dyn.lookup, lookupD, getExamples, Dyn.keys]

theorem analyzeNode_scalar_leaf_witness :
    isScalar (JValue.num 7) = true ∧
      (analyzeNode defaultSampler [("k", JValue.num 7)] "k"
          (JValue.num 7)).lookup "value" = some (Dyn.j (JValue.num 7)) :=
  ⟨by decide,
    (analyzeNode_scalar_leaf defaultSampler [("k", JValue.num 7)] "k"
      (JValue.num 7) (by decide)).2.1⟩

/-! ## C9: hidden-path set lifecycle -/

/-- C9 counterexample: a successful query result does *not* clear the
hidden-path set — `run_jq_query` filters with the existing set and never
mutates it, so a nonempty set survives unchanged. -/
theorem queryResult_keeps_hidden :
    (viewerStep ⟨[["secret"]]⟩
        (ViewerEvent.queryResult (JValue.num 1))).hiddenPaths
      = [["secret"]] ∧
    ([["secret"]] : List (List String)) ≠ [] :=
  ⟨rfl, by simp⟩

/-- C9 amended: the hidden-path set is cleared on document load,
preserved unchanged by query results, and mutated only by explicit
visibility toggles, each of which adds or removes exactly the toggled
path. -/
theorem viewerStep_hidden_lifecycle :
    (∀ st doc,
      (viewerStep st (ViewerEvent.loadFile doc)).hiddenPaths = []) ∧
    (∀ st r,
      (viewerStep st (ViewerEvent.queryResult r)).hiddenPaths
        = st.hiddenPaths) ∧
    (∀ st p,
      (viewerStep st (ViewerEvent.toggleVisibility p false)).hiddenPaths
          = setAdd st.hiddenPaths p ∧
        p ∈ (viewerStep st
          (ViewerEvent.toggleVisibility p false)).hiddenPaths) ∧
    (∀ st p,
      (viewerStep st (ViewerEvent.toggleVisibility p true)).hiddenPaths
          = setDiscard st.hiddenPaths p ∧
        p ∉ (viewerStep st
          (ViewerEvent.toggleVisibility p true)).hiddenPaths) ∧
    (∀ st p vis q, ¬ q = p →
      (q ∈ (viewerStep st (ViewerEvent.toggleVisibility p vis)).hiddenPaths
        ↔ q ∈ st.hiddenPaths)) := by
  refine ⟨fun st doc => rfl, fun st r => rfl, fun st p => ⟨rfl, ?_⟩,
    fun st p => ⟨rfl, ?_⟩, fun st p vis q hq => ?_⟩
  · by_cases hp : p ∈ st.hiddenPaths
    · simp [viewerStep, setAdd, hp]
    · simp [viewerStep, setAdd, hp]
  · simp [viewerStep, setDiscard]
  · cases vis with
    | true => simp [viewerStep, setDiscard, hq]
    | false =>
        by_cases hp : p ∈ st.hiddenPaths
        · simp [viewerStep, setAdd, hp]
        · simp [viewerStep, setAdd, hp, hq]

/-! ## Numeric array statistics (shared by C5 and C10) -/

theorem computeArrayStats_numeric_lookups (g : Sampler) (x : JValue)
    (rest : List JValue)
    (hsame : (x :: rest).all (fun y => isInstOfTypeOf y x) = true)
    (hnum : (x :: rest).all isInstNum = true) :
    (computeArrayStats g (x :: rest)).lookup "uniform_type"
        = some (Dyn.b true) ∧
    (computeArrayStats g (x :: rest)).lookup "min"
        = some (Dyn.j (pyListMin (x :: rest))) ∧
    (computeArrayStats g (x :: rest)).lookup "max"
        = some (Dyn.j (pyListMax (x :: rest))) ∧
    (computeArrayStats g (x :: rest)).lookup "mean"
        = some (Dyn.q (pyMean (x :: rest))) ∧
    ((computeArrayStats g (x :: rest)).hasKey "median" = true
        ↔ 1 < (x :: rest).length) ∧
    ((computeArrayStats g (x :: rest)).hasKey "stdev" = true
        ↔ 1 < (x :: rest).length) ∧
    ((computeArrayStats g (x :: rest)).lookup "median"
        = if 0 < rest.length then some (pyMedian (x :: rest)) else none) ∧
    ((computeArrayStats g (x :: rest)).lookup "stdev"
        = if 0 < rest.length then some (Dyn.q (sampleVariance (x :: rest)))
          else none) := by
  simp only [computeArrayStats, hsame, hnum, and_self, if_true, if_pos]
  by_cases hr : 0 < rest.length
  · by_cases hr5 : 5 < rest.length + 1
    · simp [Dyn.lookup, Dyn.hasKey, lookupD_append, lookupD, oElse, hr, hr5,
        hsame]
    · simp [Dyn.lookup, Dyn.hasKey, lookupD_append, lookupD, oElse, hr, hr5,
        hsame]
  · by_cases hr5 : 5 < rest.length + 1
    · omega
    · simp [Dyn.lookup, Dyn.hasKey, lookupD_append, lookupD, oElse, hr, hr5,
        hsame]

/-! ## C10: booleans are summarized as numbers -/

/-- C10: an all-boolean array is `uniform_type` and takes the numeric
statistics branch (`isinstance(True, int)` holds), producing
`min`/`max`/`mean` over the booleans as 0/1 and `median`/`stdev` exactly
when `count > 1`; a boolean scalar is recorded by the numeric branch of
`_compute_value_stats` (its `value` entry is set there), and the
dedicated `isinstance(value, bool)` branch is unreachable for every
input. -/
theorem bool_summarized_as_numbers (g : Sampler) (arr : List JValue)
    (hne : arr ≠ []) (hb : arr.all isInstBool = true) :
    (computeArrayStats g arr).lookup "uniform_type" = some (Dyn.b true) ∧
    (computeArrayStats g arr).lookup "min"
        = some (Dyn.j (pyListMin arr)) ∧
    (computeArrayStats g arr).lookup "max"
        = some (Dyn.j (pyListMax arr)) ∧
    (computeArrayStats g arr).lookup "mean"
        = some (Dyn.q (pyMean arr)) ∧
    ((computeArrayStats g arr).hasKey "median" = true ↔ 1 < arr.length) ∧
    ((computeArrayStats g arr).hasKey "stdev" = true ↔ 1 < arr.length) ∧
    (∀ key fields b,
      valueStatsBranch (JValue.bool b) = ValueStatsBranch.numeric ∧
      (computeValueStats key (JValue.bool b) fields).lookup "value"
        = some (Dyn.j (JValue.bool b))) ∧
    (∀ v, valueStatsBranch v ≠ ValueStatsBranch.boolDead) := by
  match arr, hne with
  | x :: rest, _ =>
    have hx : isInstBool x = true := (all_mem_iff _ _).mp hb x (by simp)
    cases x with
    | null => simp [isInstBool] at hx
    | num n => simp [isInstBool] at hx
    | str s => simp [isInstBool] at hx
    | arr l => simp [isInstBool] at hx
    | obj l => simp [isInstBool] at hx
    | bool xb =>
      have hsame : ((JValue.bool xb) :: rest).all
          (fun y => isInstOfTypeOf y (JValue.bool xb)) = true := by
        rw [all_mem_iff]
        intro y hy
        have hyb := (all_mem_iff _ _).mp hb y hy
        cases y <;> simp_all [isInstBool, isInstOfTypeOf]
      have hnum : ((JValue.bool xb) :: rest).all isInstNum = true := by
        rw [all_mem_iff]
        intro y hy
        have hyb := (all_mem_iff _ _).mp hb y hy
        cases y <;> simp_all [isInstBool, isInstNum]
      obtain ⟨h1, h2, h3, h4, h5, h6, _, _⟩ :=
        computeArrayStats_numeric_lookups g _ rest hsame hnum
      refine ⟨h1, h2, h3, h4, h5, h6, ?_, ?_⟩
      · intro key fields b
        refine ⟨rfl, ?_⟩
        by_cases hc : (!fields.isEmpty && (lookupJ fields key).isSome) = true
        · simp [computeValueStats, isInstNum, hc, Dyn.lookup, lookupD_append,
            lookupD, oElse]
        · simp [computeValueStats, isInstNum, hc, Dyn.lookup, lookupD, oElse]
      · intro v
        cases v <;>
          simp [valueStatsBranch, isInstNum, isInstStr, isInstBool, isNone]

theorem bool_summarized_as_numbers_witness :
    ([JValue.bool true, JValue.bool false] : List JValue) ≠ [] ∧
      ([JValue.bool true, JValue.bool false].all isInstBool = true) ∧
      ((computeArrayStats defaultSampler
          [JValue.bool true, JValue.bool false]).lookup "mean"
        = some (Dyn.q (pyMean [JValue.bool true, JValue.bool false]))) :=
  ⟨by simp, by decide,
    (bool_summarized_as_numbers defaultSampler
      [JValue.bool true, JValue.bool false] (by simp) (by decide)).2.2.2.1⟩

/-! ## C1: first-wins union for arrays of objects -/

theorem oElse_none_right (a : Option Dyn) : oElse a none = a := by
  cases a <;> rfl

theorem oElse_assoc (a b c : Option Dyn) :
    oElse (oElse a b) c = oElse a (oElse b c) := by
  cases a <;> rfl

theorem lookupD_mergeFirstWins (l acc : List (String × Dyn)) (k : String) :
    lookupD (mergeFirstWins acc l) k
      = oElse (lookupD acc k) (lookupD l k) := by
  induction l generalizing acc with
  | nil => simp [mergeFirstWins, lookupD, oElse_none_right]
  | cons p rest ih =>
      obtain ⟨k0, v0⟩ := p
      simp only [mergeFirstWins]
      by_cases h0 : (lookupD acc k0).isSome
      · rw [if_pos h0, ih]
        by_cases hk : k0 = k
        · subst hk
          rcases ho : lookupD acc k0 with _ | w
          · rw [ho] at h0; simp at h0
          · simp [oElse, lookupD, ho]
        · simp [lookupD, hk]
      · rw [if_neg h0, ih, lookupD_append, oElse_assoc]
        by_cases hk : k0 = k
        · subst hk
          simp [oElse, lookupD]
        · simp [oElse, lookupD, hk]

theorem lookupD_combineSchemas (g : Sampler) (items : List JValue)
    (k : String) :
    lookupD (combineSchemas g items) k = firstWinsLookup g items k := by
  have main : ∀ (its : List JValue) (acc : List (String × Dyn)),
      lookupD (its.foldl (fun acc item =>
        match item with
        | JValue.obj fs => mergeFirstWins acc (analyzeObject g fs)
        | _ => acc) acc) k
        = oElse (lookupD acc k) (firstWinsLookup g its k) := by
    intro its
    induction its with
    | nil => intro acc; simp [firstWinsLookup, oElse_none_right]
    | cons x rest ih =>
        intro acc
        cases x with
        | obj fs =>
            simp only [List.foldl_cons]
            rw [ih, lookupD_mergeFirstWins, oElse_assoc]
            simp only [firstWinsLookup]
            rcases lookupD (analyzeObject g fs) k with _ | w
            · simp [oElse]
            · simp [oElse]
        | null => simp only [List.foldl_cons]; rw [ih]; rfl
        | bool b => simp only [List.foldl_cons]; rw [ih]; rfl
        | num m => simp only [List.foldl_cons]; rw [ih]; rfl
        | str s => simp only [List.foldl_cons]; rw [ih]; rfl
        | arr l => simp only [List.foldl_cons]; rw [ih]; rfl
  have := main items []
  simpa [combineSchemas, lookupD, oElse] using this

/-- C1 counterexample: for the document `{"k": [{"x": 1}, {"y": 2}]}` —
a nested nonempty array whose sampled elements are all objects — the
inferred `properties` for `k` come from the first element only: the key
set is `["x"]` and `"y"` is absent, so the properties are not the union
of the sampled elements' keys. -/
theorem nested_array_first_element_only :
    (([JValue.obj [("x", JValue.num 1)],
       JValue.obj [("y", JValue.num 2)]].take 10).all isObjV = true) ∧
    ((((analyzeJson defaultSampler
        (JValue.obj [("k", JValue.arr
          [JValue.obj [("x", JValue.num 1)],
           JValue.obj [("y", JValue.num 2)]])])).lookup "k").bind
        (fun d => d.lookup "properties")).map Dyn.keys = some ["x"]) := by
  constructor
  · decide
  · simp [analyzeJson, analyzeObject, analyzeFields, analyzeNode,
      computeArrayStats, computeValueStats, getExamples, elementTypeOf,
      isInstOfTypeOf, isInstNum, isInstStr, isInstBool, isNone,
      pyTypeName, Dyn.lookup, lookupD, Dyn.keys, String.reduceEq,
      Option.bind, lookupJ]

/-- C1 (amended): the first-wins union of the sampled elements' keys is
the behavior of the *root* array branch of `analyze_json` only — for
every key other than the `__array_stats` marker, the root schema entry
is the schema from the first sampled dict element that defines it, and
the marker entry is always present.  A *nested* array whose first
element is a dict instead takes its `properties` from that first element
alone (the source samples one representative element). -/
theorem array_schema_first_wins (g : Sampler) (xs : List JValue)
    (hne : xs ≠ []) (hobj : (xs.take 10).all isObjV = true) :
    (∀ k, ¬ k = "__array_stats" →
      (analyzeJson g (JValue.arr xs)).lookup k
        = firstWinsLookup g (xs.take 10) k) ∧
    ((analyzeJson g (JValue.arr xs)).hasKey "__array_stats" = true) ∧
    (∀ allFields key ffs tail,
      (analyzeNode g allFields key
          (JValue.arr (JValue.obj ffs :: tail))).lookup "properties"
        = some (Dyn.dict (analyzeObject g ffs))) := by
  have hne2 : xs.isEmpty = false := by
    cases xs with
    | nil => exact absurd rfl hne
    | cons a l => rfl
  refine ⟨fun k hk => ?_, ?_, fun allFields key ffs tail => ?_⟩
  · simp only [analyzeJson, hne2, Bool.false_eq_true, if_false,
      Dyn.lookup, lookupD_append, lookupD_combineSchemas, lookupD]
    rw [if_neg (fun h => hk h.symm), oElse_none_right]
  · simp only [analyzeJson, hne2, Bool.false_eq_true, if_false,
      Dyn.hasKey, lookupD_append, lookupD_combineSchemas]
    rcases firstWinsLookup g (xs.take 10) "__array_stats" with _ | w
    · simp [oElse, lookupD]
    · simp [oElse]
  · simp [analyzeNode, analyzeObject, Dyn.lookup, lookupD_append,
      lookupD, String.reduceEq, oElse]

theorem array_schema_first_wins_witness :
    (([JValue.obj [("a", JValue.num 1)],
       JValue.obj [("b", JValue.num 2)]] : List JValue) ≠ [] ∧
     (([JValue.obj [("a", JValue.num 1)],
        JValue.obj [("b", JValue.num 2)]].take 10).all isObjV = true)) ∧
      (analyzeJson defaultSampler (JValue.arr
          [JValue.obj [("a", JValue.num 1)],
           JValue.obj [("b", JValue.num 2)]])).lookup "a"
        = firstWinsLookup defaultSampler
            ([JValue.obj [("a", JValue.num 1)],
              JValue.obj [("b", JValue.num 2)]].take 10) "a" :=
  ⟨⟨by simp, by decide⟩,
    (array_schema_first_wins defaultSampler
      [JValue.obj [("a", JValue.num 1)], JValue.obj [("b", JValue.num 2)]]
      (by simp) (by decide)).1 "a" (by decide)⟩

/-! ## C3: determinism of `analyze` -/

theorem validSampler_defaultSampler : ValidSampler defaultSampler := by
  intro n k hk
  refine ⟨by simp [defaultSampler], ?_, ?_⟩
  · exact List.Nodup.map (fun a b hab => by omega) (List.nodup_range k)
  · intro i hi
    simp only [defaultSampler, List.mem_map, List.mem_range] at hi
    obtain ⟨j, hj, rfl⟩ := hi
    omega

theorem validSampler_reverseSampler : ValidSampler reverseSampler := by
  intro n k hk
  refine ⟨by simp [reverseSampler], ?_, ?_⟩
  · exact List.nodup_reverse.mpr
      (List.Nodup.map (fun a b hab => by simpa using hab)
        (List.nodup_range k))
  · intro i hi
    simp only [reverseSampler, List.mem_reverse, List.mem_map,
      List.mem_range] at hi
    obtain ⟨j, hj, rfl⟩ := hi
    omega

theorem detSafeFields_mem {fs : List (String × JValue)} {k : String}
    {v : JValue} (h : detSafe.detSafeFields fs = true) (hm : (k, v) ∈ fs) :
    detSafe v = true := by
  induction fs with
  | nil => cases hm
  | cons p rest ih =>
      obtain ⟨k0, v0⟩ := p
      simp only [detSafe.detSafeFields, Bool.and_eq_true] at h
      rcases List.mem_cons.mp hm with h0 | h0
      · cases h0; exact h.1
      · exact ih h.2 h0

theorem detSafeList_mem {xs : List JValue} {v : JValue}
    (h : detSafe.detSafeList xs = true) (hm : v ∈ xs) :
    detSafe v = true := by
  induction xs with
  | nil => cases hm
  | cons x rest ih =>
      simp only [detSafe.detSafeList, Bool.and_eq_true] at h
      rcases List.mem_cons.mp hm with h0 | h0
      · cases h0; exact h.1
      · exact ih h.2 h0

theorem computeArrayStats_indep (g1 g2 : Sampler) (xs : List JValue)
    (h : detSafe (JValue.arr xs) = true) :
    computeArrayStats g1 xs = computeArrayStats g2 xs := by
  cases xs with
  | nil => rfl
  | cons x rest =>
    simp only [detSafe, Bool.and_eq_true, Bool.not_eq_true'] at h
    have hguard := h.1
    simp only [computeArrayStats]
    by_cases hnumb : ((x :: rest).all (fun y => isInstOfTypeOf y x)) = true
        ∧ ((x :: rest).all isInstNum) = true
    · rw [if_pos hnumb, if_pos hnumb]
    · rw [if_neg hnumb, if_neg hnumb]
      by_cases hstr : ((x :: rest).all (fun y => isInstOfTypeOf y x)) = true
          ∧ ((x :: rest).all isInstStr) = true
      · rw [if_pos hstr, if_pos hstr]
        have hlen : ¬ 5 < (x :: rest).length := by
          intro hlt
          rw [hstr.1, hstr.2] at hguard
          simp at hguard
          simp at hlt
          omega
        rw [if_neg hlen, if_neg hlen]
      · rw [if_neg hstr, if_neg hstr]

theorem analyzeFields_congr (g1 g2 : Sampler)
    (l : List (String × JValue))
    (h : ∀ p ∈ l, ∀ (a : List (String × JValue)) (k : String),
      analyzeNode g1 a k (Prod.snd p) = analyzeNode g2 a k (Prod.snd p)) :
    ∀ a, analyzeFields g1 a l = analyzeFields g2 a l := by
  induction l with
  | nil => intro a; simp [analyzeFields]
  | cons p rest ih =>
      intro a
      obtain ⟨k0, v0⟩ := p
      simp only [analyzeFields]
      rw [h (k0, v0) (by simp) a k0,
        ih (fun q hq => h q (by simp [hq])) a]

theorem analyzeNode_indep (g1 g2 : Sampler) :
    ∀ v, detSafe v = true → ∀ (a : List (String × JValue)) (k : String),
      analyzeNode g1 a k v = analyzeNode g2 a k v := by
  intro v
  induction v using JValue.memInduction with
  | hnull => intro h a k; simp [analyzeNode]
  | hbool b => intro h a k; simp [analyzeNode]
  | hnum m => intro h a k; simp [analyzeNode]
  | hstr s => intro h a k; simp [analyzeNode]
  | hobj fs ih =>
      intro h a k
      simp only [analyzeNode]
      rw [analyzeFields_congr g1 g2 fs
        (fun p hp => ih p hp
          (detSafeFields_mem (by simpa [detSafe] using h)
            (by simpa using hp)))]
  | harr xs ih =>
      intro h a k
      have hlist : detSafe.detSafeList xs = true := by
        simp only [detSafe, Bool.and_eq_true] at h
        exact h.2
      cases xs with
      | nil => simp [analyzeNode, computeArrayStats]
      | cons x rest =>
          cases x with
          | obj ffs =>
              have hobj2 : detSafe (JValue.obj ffs) = true :=
                detSafeList_mem hlist (by simp)
              have heq := ih (JValue.obj ffs) (by simp) hobj2 ffs k
              simp only [analyzeNode] at heq
              have heq2 : analyzeFields g1 ffs ffs
                  = analyzeFields g2 ffs ffs := by
                simpa using heq
              simp only [analyzeNode]
              rw [computeArrayStats_indep g1 g2 _ h, heq2]
          | null =>
              simp only [analyzeNode]
              rw [computeArrayStats_indep g1 g2 _ h]
          | bool b =>
              simp only [analyzeNode]
              rw [computeArrayStats_indep g1 g2 _ h]
          | num m =>
              simp only [analyzeNode]
              rw [computeArrayStats_indep g1 g2 _ h]
          | str s =>
              simp only [analyzeNode]
              rw [computeArrayStats_indep g1 g2 _ h]
          | arr l =>
              simp only [analyzeNode]
              rw [computeArrayStats_indep g1 g2 _ h]

theorem analyzeObject_indep (g1 g2 : Sampler)
    (fs : List (String × JValue)) (h : detSafe (JValue.obj fs) = true) :
    analyzeObject g1 fs = analyzeObject g2 fs := by
  have heq := analyzeNode_indep g1 g2 (JValue.obj fs) h fs ""
  simp only [analyzeNode] at heq
  simpa [analyzeObject] using heq

theorem combineSchemas_indep (g1 g2 : Sampler) (items : List JValue)
    (h : ∀ x ∈ items, detSafe x = true) :
    combineSchemas g1 items = combineSchemas g2 items := by
  suffices main : ∀ (its : List JValue), (∀ x ∈ its, detSafe x = true) →
      ∀ acc : List (String × Dyn),
      its.foldl (fun acc item =>
        match item with
        | JValue.obj fs => mergeFirstWins acc (analyzeObject g1 fs)
        | _ => acc) acc
        = its.foldl (fun acc item =>
        match item with
        | JValue.obj fs => mergeFirstWins acc (analyzeObject g2 fs)
        | _ => acc) acc by
    exact main items h []
  intro its
  induction its with
  | nil => intro h2 acc; rfl
  | cons x rest ih =>
      intro h2 acc
      cases x with
      | obj fs =>
          simp only [List.foldl_cons]
          rw [analyzeObject_indep g1 g2 fs (h2 _ (by simp)),
            ih (fun y hy => h2 y (by simp [hy]))]
      | null => exact ih (fun y hy => h2 y (by simp [hy])) acc
      | bool b => exact ih (fun y hy => h2 y (by simp [hy])) acc
      | num m => exact ih (fun y hy => h2 y (by simp [hy])) acc
      | str s => exact ih (fun y hy => h2 y (by simp [hy])) acc
      | arr l => exact ih (fun y hy => h2 y (by simp [hy])) acc

set_option maxHeartbeats 2000000 in
/-- C3 counterexample: on the six-element string array
`["a","b","c","d","e","f"]`, two valid outcomes of `random.sample` (the
same three interior indices in the two selection orders) give different
Schemas — the `examples` list in the array statistics differs — so
`analyze` is not deterministic including examples. -/
theorem analyze_depends_on_sampler :
    ValidSampler defaultSampler ∧ ValidSampler reverseSampler ∧
    analyzeJson defaultSampler (JValue.arr
        [JValue.str "a", JValue.str "b", JValue.str "c",
         JValue.str "d", JValue.str "e", JValue.str "f"])
      ≠ analyzeJson reverseSampler (JValue.arr
        [JValue.str "a", JValue.str "b", JValue.str "c",
         JValue.str "d", JValue.str "e", JValue.str "f"]) := by
  refine ⟨validSampler_defaultSampler, validSampler_reverseSampler,
    fun hcontra => ?_⟩
  have h2 := congrArg (fun d => (d.lookup "__array_stats").bind
    (fun s => s.lookup "examples")) hcontra
  have e1 : ((analyzeJson defaultSampler (JValue.arr
        [JValue.str "a", JValue.str "b", JValue.str "c",
         JValue.str "d", JValue.str "e", JValue.str "f"])).lookup
      "__array_stats").bind (fun s => s.lookup "examples")
      = some (Dyn.list [Dyn.j (JValue.str "a"), Dyn.j (JValue.str "f"),
          Dyn.j (JValue.str "b"), Dyn.j (JValue.str "c"),
          Dyn.j (JValue.str "d")]) := by
    simp [analyzeJson, combineSchemas, computeArrayStats, mostCommonAll,
      sortDescCount, insertDescCount, counterItems, distinctFirst,
      countOcc, freqEntry, strVal, isInstOfTypeOf, isInstStr, isInstNum,
      defaultSampler, lookupD, Dyn.lookup, lookupD_append, oElse,
      Option.bind, String.reduceEq, List.range, List.range.loop]
  have e2 : ((analyzeJson reverseSampler (JValue.arr
        [JValue.str "a", JValue.str "b", JValue.str "c",
         JValue.str "d", JValue.str "e", JValue.str "f"])).lookup
      "__array_stats").bind (fun s => s.lookup "examples")
      = some (Dyn.list [Dyn.j (JValue.str "a"), Dyn.j (JValue.str "f"),
          Dyn.j (JValue.str "d"), Dyn.j (JValue.str "c"),
          Dyn.j (JValue.str "b")]) := by
    simp [analyzeJson, combineSchemas, computeArrayStats, mostCommonAll,
      sortDescCount, insertDescCount, counterItems, distinctFirst,
      countOcc, freqEntry, strVal, isInstOfTypeOf, isInstStr, isInstNum,
      reverseSampler, defaultSampler, lookupD, Dyn.lookup, lookupD_append,
      oElse, Option.bind, String.reduceEq, List.range, List.range.loop]
  simp only [] at h2
  rw [e1, e2] at h2
  simp at h2

/-- C3 (amended): `analyze` is sampler-independent — hence deterministic
across repeated calls — on every Value that contains no uniformly-string
array of more than 5 elements; for such arrays the `examples` field
depends on the `random.sample` outcome. -/
theorem analyze_deterministic_when_detSafe (v : JValue)
    (h : detSafe v = true) (g1 g2 : Sampler) :
    analyzeJson g1 v = analyzeJson g2 v := by
  cases v with
  | null => rfl
  | bool b => rfl
  | num m => rfl
  | str s => rfl
  | obj fs =>
      simp only [analyzeJson]
      rw [analyzeObject_indep g1 g2 fs h]
  | arr xs =>
      simp only [analyzeJson]
      by_cases he : xs.isEmpty = true
      · simp [he]
      · simp only [he, Bool.false_eq_true, if_false]
        have hlist : detSafe.detSafeList xs = true := by
          simp only [detSafe, Bool.and_eq_true] at h
          exact h.2
        rw [computeArrayStats_indep g1 g2 xs h,
          combineSchemas_indep g1 g2 (xs.take 10)
            (fun y hy => detSafeList_mem hlist (List.mem_of_mem_take hy))]

theorem analyze_deterministic_when_detSafe_witness :
    detSafe (JValue.obj [("a", JValue.num 1)]) = true ∧
      analyzeJson defaultSampler (JValue.obj [("a", JValue.num 1)])
        = analyzeJson reverseSampler (JValue.obj [("a", JValue.num 1)]) :=
  ⟨by decide,
    analyze_deterministic_when_detSafe (JValue.obj [("a", JValue.num 1)])
      (by decide) defaultSampler reverseSampler⟩

/-! ## C2: path round-trip lemmas -/

theorem analyzeFields_eq_map (g : Sampler) (a : List (String × JValue)) :
    ∀ l, analyzeFields g a l
      = l.map (fun kv => (kv.1, analyzeNode g a kv.1 kv.2)) := by
  intro l
  induction l with
  | nil => simp [analyzeFields]
  | cons p rest ih =>
      obtain ⟨k0, v0⟩ := p
      simp [analyzeFields, ih]

theorem lookupD_analyzeFields (g : Sampler) (a : List (String × JValue))
    (l : List (String × JValue)) (k : String) :
    lookupD (analyzeFields g a l) k
      = (lookupJ l k).map (fun v => analyzeNode g a k v) := by
  induction l with
  | nil => simp [analyzeFields, lookupD, lookupJ]
  | cons p rest ih =>
      obtain ⟨k0, v0⟩ := p
      simp only [analyzeFields, lookupD, lookupJ]
      by_cases hk : k0 = k
      · subst hk
        simp
      · simp [hk, ih]

theorem lookupJ_eq_of_mem_nodup {l : List (String × JValue)} {k : String}
    {v : JValue} (hnd : (l.map Prod.fst).Nodup) (hm : (k, v) ∈ l) :
    lookupJ l k = some v := by
  induction l with
  | nil => cases hm
  | cons p rest ih =>
      obtain ⟨k0, v0⟩ := p
      simp only [List.map_cons, List.nodup_cons] at hnd
      rcases List.mem_cons.mp hm with h0 | h0
      · cases h0
        simp [lookupJ]
      · have hk0 : ¬ k0 = k := by
          intro hk
          subst hk
          exact hnd.1 (List.mem_map.mpr ⟨(k0, v), h0, rfl⟩)
        simp only [lookupJ, if_neg hk0]
        exact ih hnd.2 h0

theorem keysOKFields_mem {fs : List (String × JValue)} {k : String}
    {v : JValue} (h : keysOK.keysOKFields fs = true) (hm : (k, v) ∈ fs) :
    reservedKeys.contains k = false ∧ keysOK v = true := by
  induction fs with
  | nil => cases hm
  | cons p rest ih =>
      obtain ⟨k0, v0⟩ := p
      simp only [keysOK.keysOKFields, Bool.and_eq_true,
        Bool.not_eq_true'] at h
      rcases List.mem_cons.mp hm with h0 | h0
      · cases h0
        exact ⟨h.1.1, h.1.2⟩
      · exact ih h.2 h0

theorem not_reserved_facts {seg : String}
    (h : reservedKeys.contains seg = false) :
    ¬ "type" = seg ∧ ¬ "properties" = seg ∧ ¬ "element_type" = seg ∧
    ¬ "stats" = seg ∧ ¬ "value" = seg ∧ ¬ "examples" = seg ∧
    ¬ "__array_stats" = seg := by
  refine ⟨?_, ?_, ?_, ?_, ?_, ?_, ?_⟩ <;>
    · intro hseg
      rw [← hseg] at h
      simp [reservedKeys] at h

theorem pathExtend_not_reserved {k : String}
    (h : reservedKeys.contains k = false) :
    ∀ p, pathExtend p k = p ++ [k] := by
  intro p
  have h1 : ¬ k = "[Root]" := by
    intro hk
    subst hk
    simp [reservedKeys] at h
  have h2 : ¬ k = "elements" := by
    intro hk
    subst hk
    simp [reservedKeys] at h
  simp [pathExtend, h1, h2]

theorem mem_addSchemaItemsPaths (p : List String)
    (l : List (String × Dyn)) (q : List String) (s : Dyn) :
    (q, s) ∈ addSchemaItemsPaths p l
      ↔ ∃ k v, (k, v) ∈ l ∧ (q, s) ∈ addSchemaItemPaths p k v := by
  induction l with
  | nil => simp [addSchemaItemsPaths]
  | cons e rest ih =>
      obtain ⟨k0, v0⟩ := e
      simp only [addSchemaItemsPaths, List.mem_append, ih]
      constructor
      · rintro (h | ⟨k, v, hm, hp⟩)
        · exact ⟨k0, v0, by simp, h⟩
        · exact ⟨k, v, by simp [hm], hp⟩
      · rintro ⟨k, v, hm, hp⟩
        rcases List.mem_cons.mp hm with h0 | h0
        · cases h0
          exact Or.inl hp
        · exact Or.inr ⟨k, v, h0, hp⟩

theorem getSchemaLoop_succ (d : Dyn) (i : Nat) (path : List String) :
    getSchemaLoop d (i + 1) path = resolveFrom d path := by
  induction path generalizing d i with
  | nil => rfl
  | cons seg rest ih =>
      simp only [getSchemaLoop, resolveFrom]
      rcases resolveStep d seg with _ | nxt
      · simp
      · simp [ih]

theorem sizeEntries_mem {l : List (String × Dyn)} {k : String} {v : Dyn}
    (hm : (k, v) ∈ l) : v.size ≤ Dyn.size.sizeEntries l := by
  induction l with
  | nil => cases hm
  | cons p rest ih =>
      obtain ⟨k0, v0⟩ := p
      simp only [Dyn.size.sizeEntries]
      rcases List.mem_cons.mp hm with h0 | h0
      · cases h0; omega
      · have := ih h0; omega

theorem pathExtend_append_exists (p : List String) (k : String) :
    ∃ u, pathExtend p k = p ++ u := by
  by_cases h : (k = "[Root]" || k = "elements") = true
  · exact ⟨[], by simp [pathExtend, h]⟩
  · exact ⟨[k], by simp [pathExtend, h]⟩

theorem addSchemaItemPaths_prefix :
    ∀ (n : Nat) (node : Dyn), node.size ≤ n →
      ∀ (p : List String) (k : String) (q : List String) (s : Dyn),
        (q, s) ∈ addSchemaItemPaths p k node →
        ∃ t, q = pathExtend p k ++ t := by
  intro n
  induction n with
  | zero =>
      intro node hsz
      have := Dyn.size_pos node
      omega
  | succ n ih =>
      intro node hsz p k q s hm
      match node with
      | Dyn.s v => simp [addSchemaItemPaths] at hm; exact ⟨[], by simp [hm.1]⟩
      | Dyn.b v => simp [addSchemaItemPaths] at hm; exact ⟨[], by simp [hm.1]⟩
      | Dyn.n v => simp [addSchemaItemPaths] at hm; exact ⟨[], by simp [hm.1]⟩
      | Dyn.q v => simp [addSchemaItemPaths] at hm; exact ⟨[], by simp [hm.1]⟩
      | Dyn.j v => simp [addSchemaItemPaths] at hm; exact ⟨[], by simp [hm.1]⟩
      | Dyn.pair a b =>
          simp [addSchemaItemPaths] at hm; exact ⟨[], by simp [hm.1]⟩
      | Dyn.list xs =>
          simp [addSchemaItemPaths] at hm; exact ⟨[], by simp [hm.1]⟩
      | Dyn.dict xs =>
          rw [addSchemaItemPaths] at hm
          by_cases hty : (lookupD xs "type").isSome
          · rw [if_pos hty] at hm
            rcases List.mem_cons.mp hm with h0 | h0
            · have hq := (Prod.ext_iff.mp h0).1
              exact ⟨[], by simpa using hq⟩
            · have hin : ∃ k2 v2, (k2, v2) ∈ propsEntries xs ∧
                  (q, s) ∈ addSchemaItemPaths (pathExtend p k) k2 v2 := by
                by_cases hcond : (dynTypeIs xs "object"
                    && (lookupD xs "properties").isSome) = true
                · rw [if_pos hcond] at h0
                  exact (mem_addSchemaItemsPaths _ _ _ _).mp h0
                · rw [if_neg hcond] at h0
                  by_cases hcond2 : (dynTypeIs xs "array"
                      && (lookupD xs "element_type").isSome
                      && (lookupD xs "properties").isSome) = true
                  · rw [if_pos hcond2] at h0
                    exact (mem_addSchemaItemsPaths _ _ _ _).mp h0
                  · rw [if_neg hcond2] at h0
                    cases h0
              obtain ⟨k2, v2, hm2, hp2⟩ := hin
              have hsz2 : v2.size ≤ n := by
                have h1 := sizeEntries_mem hm2
                have h2 : Dyn.size.sizeEntries (propsEntries xs)
                    ≤ Dyn.size.sizeEntries xs := by
                  by_cases hpp : (lookupD xs "properties").isSome
                  · exact le_of_lt (propsEntries_size_lt hpp)
                  · rcases hl : lookupD xs "properties" with _ | w
                    · simp [propsEntries, hl, Dyn.size.sizeEntries]
                    · rw [hl] at hpp; simp at hpp
                simp only [Dyn.size] at hsz
                omega
              obtain ⟨t2, ht2⟩ := ih v2 hsz2 (pathExtend p k) k2 q s hp2
              obtain ⟨u, hu⟩ := pathExtend_append_exists (pathExtend p k) k2
              exact ⟨u ++ t2, by simp [ht2, hu]⟩
          · rw [if_neg hty] at hm
            simp at hm
            exact ⟨[], by simp [hm.1]⟩

theorem resolveStep_analyzeNode_obj (g : Sampler)
    (a : List (String × JValue)) (k seg : String)
    (fs : List (String × JValue))
    (hseg : reservedKeys.contains seg = false) :
    resolveStep (analyzeNode g a k (JValue.obj fs)) seg
      = (lookupJ fs seg).map (fun v => analyzeNode g fs seg v) := by
  obtain ⟨h1, h2, h3, h4, h5, h6, h7⟩ := not_reserved_facts hseg
  simp only [analyzeNode, resolveStep, lookupD, if_neg h1, if_neg h2,
    String.reduceEq, if_true, if_false, reduceIte]
  rcases hj : lookupJ fs seg with _ | v
  · simp [Dyn.hasKey, lookupD_analyzeFields, hj, dynTypeIs, lookupD,
      String.reduceEq]
  · simp [Dyn.hasKey, Dyn.lookup, lookupD_analyzeFields, hj]

theorem resolveStep_analyzeNode_arrObj (g : Sampler)
    (a : List (String × JValue)) (k seg : String)
    (ffs : List (String × JValue)) (tail : List JValue)
    (hseg : reservedKeys.contains seg = false) :
    resolveStep (analyzeNode g a k
        (JValue.arr (JValue.obj ffs :: tail))) seg
      = (lookupJ ffs seg).map (fun v => analyzeNode g ffs seg v) := by
  obtain ⟨h1, h2, h3, h4, h5, h6, h7⟩ := not_reserved_facts hseg
  simp only [analyzeNode, resolveStep, lookupD, if_neg h1, if_neg h2,
    if_neg h3, if_neg h4, String.reduceEq, if_true, if_false, reduceIte]
  rcases hj : lookupJ ffs seg with _ | v
  · simp [Dyn.hasKey, lookupD_analyzeFields, hj, dynTypeIs, lookupD,
      String.reduceEq]
  · simp [Dyn.hasKey, Dyn.lookup, lookupD_analyzeFields, hj]

theorem lookupJ_arrayStats_none {fs : List (String × JValue)}
    (h : keysOK.keysOKFields fs = true) :
    lookupJ fs "__array_stats" = none := by
  induction fs with
  | nil => rfl
  | cons p rest ih =>
      obtain ⟨k0, v0⟩ := p
      simp only [keysOK.keysOKFields, Bool.and_eq_true,
        Bool.not_eq_true'] at h
      have hk0 : ¬ k0 = "__array_stats" := by
        intro hk
        subst hk
        simp [reservedKeys] at h
      simp only [lookupJ, if_neg hk0]
      exact ih h.2

theorem roundtrip_node :
    ∀ (n : Nat) (v : JValue), v.size ≤ n → keysOK v = true →
      ∀ (g : Sampler) (a : List (String × JValue)) (k : String),
        reservedKeys.contains k = false →
        ∀ (p q : List String) (s : Dyn),
        (q, s) ∈ addSchemaItemPaths p k (analyzeNode g a k v) →
        ∃ t, q = p ++ [k] ++ t ∧
          resolveFrom (analyzeNode g a k v) t = some s := by
  intro n
  induction n with
  | zero =>
      intro v hsz
      have := JValue.size_positive v
      omega
  | succ n ih =>
      intro v hsz hok g a k hk p q s hm
      have hpe := pathExtend_not_reserved hk
      match v with
      | JValue.null =>
          simp [analyzeNode, addSchemaItemPaths, dynTypeIs, lookupD,
            String.reduceEq, hpe] at hm
          exact ⟨[], by simp [hm.1], by simp [hm.2, resolveFrom, analyzeNode]⟩
      | JValue.bool b =>
          simp [analyzeNode, addSchemaItemPaths, dynTypeIs, lookupD,
            String.reduceEq, hpe] at hm
          exact ⟨[], by simp [hm.1], by simp [hm.2, resolveFrom, analyzeNode]⟩
      | JValue.num m =>
          simp [analyzeNode, addSchemaItemPaths, dynTypeIs, lookupD,
            String.reduceEq, hpe] at hm
          exact ⟨[], by simp [hm.1], by simp [hm.2, resolveFrom, analyzeNode]⟩
      | JValue.str s2 =>
          simp [analyzeNode, addSchemaItemPaths, dynTypeIs, lookupD,
            String.reduceEq, hpe] at hm
          exact ⟨[], by simp [hm.1], by simp [hm.2, resolveFrom, analyzeNode]⟩
      | JValue.obj fs =>
          simp only [keysOK, Bool.and_eq_true, decide_eq_true_eq] at hok
          simp [analyzeNode, addSchemaItemPaths, dynTypeIs, propsEntries,
            lookupD, String.reduceEq, hpe] at hm
          rcases hm with ⟨hq, hs⟩ | hm2
          · exact ⟨[], by simp [hq],
              by simp [resolveFrom, analyzeNode, hs]⟩
          · obtain ⟨k2, v2, hmem, hp2⟩ :=
              (mem_addSchemaItemsPaths _ _ _ _).mp hm2
            rw [analyzeFields_eq_map] at hmem
            obtain ⟨⟨k3, v3⟩, hkv, heq⟩ := List.mem_map.mp hmem
            simp only [Prod.mk.injEq] at heq
            obtain ⟨rfl, rfl⟩ := heq
            have hres := keysOKFields_mem hok.2 hkv
            have hsz3 : v3.size ≤ n := by
              have h1 := JValue.size_lt_of_mem_obj hkv
              omega
            obtain ⟨t2, hq2, hr2⟩ :=
              ih v3 hsz3 hres.2 g fs k3 hres.1 (p ++ [k]) q s hp2
            refine ⟨k3 :: t2, by simp [hq2], ?_⟩
            simp only [resolveFrom]
            rw [resolveStep_analyzeNode_obj g a k k3 fs hres.1,
              lookupJ_eq_of_mem_nodup hok.1 hkv]
            simpa using hr2
      | JValue.arr xs =>
          match xs with
          | [] =>
              simp [analyzeNode, addSchemaItemPaths, dynTypeIs,
                propsEntries, lookupD, String.reduceEq, elementTypeOf,
                hpe] at hm
              exact ⟨[], by simp [hm.1],
                by simp [resolveFrom, analyzeNode, hm.2, elementTypeOf]⟩
          | JValue.null :: tail =>
              simp [analyzeNode, addSchemaItemPaths, dynTypeIs,
                propsEntries, lookupD, String.reduceEq, hpe] at hm
              exact ⟨[], by simp [hm.1],
                by simp [resolveFrom, analyzeNode, hm.2, elementTypeOf]⟩
          | JValue.bool b :: tail =>
              simp [analyzeNode, addSchemaItemPaths, dynTypeIs,
                propsEntries, lookupD, String.reduceEq, hpe] at hm
              exact ⟨[], by simp [hm.1],
                by simp [resolveFrom, analyzeNode, hm.2, elementTypeOf]⟩
          | JValue.num m :: tail =>
              simp [analyzeNode, addSchemaItemPaths, dynTypeIs,
                propsEntries, lookupD, String.reduceEq, hpe] at hm
              exact ⟨[], by simp [hm.1],
                by simp [resolveFrom, analyzeNode, hm.2, elementTypeOf]⟩
          | JValue.str s2 :: tail =>
              simp [analyzeNode, addSchemaItemPaths, dynTypeIs,
                propsEntries, lookupD, String.reduceEq, hpe] at hm
              exact ⟨[], by simp [hm.1],
                by simp [resolveFrom, analyzeNode, hm.2, elementTypeOf]⟩
          | JValue.arr l2 :: tail =>
              simp [analyzeNode, addSchemaItemPaths, dynTypeIs,
                propsEntries, lookupD, String.reduceEq, hpe] at hm
              exact ⟨[], by simp [hm.1],
                by simp [resolveFrom, analyzeNode, hm.2, elementTypeOf]⟩
          | JValue.obj ffs :: tail =>
              have hok2 : ((ffs.map Prod.fst).Nodup) ∧
                  keysOK.keysOKFields ffs = true := by
                simp only [keysOK, keysOK.keysOKList, Bool.and_eq_true,
                  decide_eq_true_eq] at hok
                exact hok.1
              simp [analyzeNode, addSchemaItemPaths, dynTypeIs,
                propsEntries, lookupD, String.reduceEq, hpe] at hm
              rcases hm with ⟨hq, hs⟩ | hm2
              · exact ⟨[], by simp [hq],
                  by simp [resolveFrom, analyzeNode, hs]⟩
              · obtain ⟨k2, v2, hmem, hp2⟩ :=
                  (mem_addSchemaItemsPaths _ _ _ _).mp hm2
                rw [analyzeFields_eq_map] at hmem
                obtain ⟨⟨k3, v3⟩, hkv, heq⟩ := List.mem_map.mp hmem
                simp only [Prod.mk.injEq] at heq
                obtain ⟨rfl, rfl⟩ := heq
                have hres := keysOKFields_mem hok2.2 hkv
                have hsz3 : v3.size ≤ n := by
                  have h1 := JValue.size_lt_of_mem_obj hkv
                  have h2 := @JValue.size_lt_of_mem_arr (JValue.obj ffs)
                    (JValue.obj ffs :: tail) (by simp)
                  omega
                obtain ⟨t2, hq2, hr2⟩ :=
                  ih v3 hsz3 hres.2 g ffs k3 hres.1 (p ++ [k]) q s hp2
                refine ⟨k3 :: t2, by simp [hq2], ?_⟩
                simp only [resolveFrom]
                rw [resolveStep_analyzeNode_arrObj g a k k3 ffs tail
                  hres.1, lookupJ_eq_of_mem_nodup hok2.1 hkv]
                simpa using hr2

/-- C2 counterexample: for the root-array document
`[{"a": {"b": 1}}]` the schema tree contains the node at path
`["a", "b"]` (paths skip the `[Root]` and `elements` markers), but
`_get_schema_at_path` returns not-found for it: the `__array_stats`
special case consumes the first segment (`continue`), after which `"b"`
cannot be resolved from the root dict.  So the round trip fails when the
document root is an array. -/
theorem root_array_path_resolution_fails :
    ((nodePaths (analyzeJson defaultSampler (JValue.arr
        [JValue.obj [("a", JValue.obj [("b", JValue.num 1)])]]))).map
      Prod.fst = [["a"], ["a", "b"]]) ∧
    getSchemaAtPath (analyzeJson defaultSampler (JValue.arr
        [JValue.obj [("a", JValue.obj [("b", JValue.num 1)])]]))
      ["a", "b"] = none := by
  constructor
  · simp [analyzeJson, combineSchemas, analyzeObject, analyzeFields,
      analyzeNode, computeArrayStats, computeValueStats, getExamples,
      mergeFirstWins, nodePaths, addSchemaItemsPaths, addSchemaItemPaths,
      pathExtend, dynTypeIs, propsEntries, lookupD, lookupD_append, oElse,
      isInstOfTypeOf, isInstNum, isInstStr, isNone, pyTypeName,
      String.reduceEq, lookupJ, Dyn.hasKey]
  · simp [analyzeJson, combineSchemas, analyzeObject, analyzeFields,
      analyzeNode, computeArrayStats, computeValueStats, getExamples,
      mergeFirstWins, getSchemaAtPath, getSchemaLoop, resolveStep,
      lookupD, lookupD_append, oElse, isInstOfTypeOf, isInstNum,
      isInstStr, isNone, pyTypeName, String.reduceEq, lookupJ,
      Dyn.hasKey, Dyn.lookup]

/-- C2 (amended): when the document root is an object whose keys — at
every nesting level — are distinct, avoid the analyzer's reserved
schema keys, and avoid the two tree labels `"[Root]"` and `"elements"`
that `_get_item_path` drops from every path (a document key with one of
those names is omitted from its own path, so its descendants' paths no
longer resolve), then for every node present in the schema, resolving
the path `_get_item_path` produces for it succeeds and returns that
same node's schema.  For array-root documents the round trip fails (see
the counterexample). -/
theorem resolve_returns_node_for_object_root (g : Sampler)
    (fs : List (String × JValue)) (hok : keysOK (JValue.obj fs) = true) :
    ∀ q s, (q, s) ∈ nodePaths (analyzeJson g (JValue.obj fs)) →
      getSchemaAtPath (analyzeJson g (JValue.obj fs)) q = some s := by
  intro q s hm
  have hok2 : ((fs.map Prod.fst).Nodup) ∧
      keysOK.keysOKFields fs = true := by
    simpa [keysOK, Bool.and_eq_true, decide_eq_true_eq] using hok
  have hstats : lookupD (analyzeFields g fs fs) "__array_stats"
      = none := by
    rw [lookupD_analyzeFields, lookupJ_arrayStats_none hok2.2]
    rfl
  simp only [analyzeJson, analyzeObject, nodePaths, hstats,
    Option.isSome_none, Bool.false_eq_true, if_false] at hm
  obtain ⟨k2, v2, hmem, hp2⟩ := (mem_addSchemaItemsPaths _ _ _ _).mp hm
  rw [analyzeFields_eq_map] at hmem
  obtain ⟨⟨k3, v3⟩, hkv, heq⟩ := List.mem_map.mp hmem
  simp only [Prod.mk.injEq] at heq
  obtain ⟨rfl, rfl⟩ := heq
  have hres := keysOKFields_mem hok2.2 hkv
  obtain ⟨t, hq, hr⟩ :=
    roundtrip_node v3.size v3 le_rfl hres.2 g fs k3 hres.1 [] q s hp2
  subst hq
  have hstep : resolveStep (Dyn.dict (analyzeFields g fs fs)) k3
      = some (analyzeNode g fs k3 v3) := by
    simp only [resolveStep, lookupD_analyzeFields,
      lookupJ_eq_of_mem_nodup hok2.1 hkv]
    rfl
  simp only [analyzeJson, analyzeObject, getSchemaAtPath,
    List.nil_append, List.isEmpty_cons, Bool.false_eq_true, if_false,
    getSchemaLoop]
  have hhk : (Dyn.dict (analyzeFields g fs fs)).hasKey "__array_stats"
      = false := by
    simp [Dyn.hasKey, hstats]
  rw [hhk]
  simp only [Bool.and_false, Bool.false_eq_true, if_false, hstep,
    getSchemaLoop_succ]
  exact hr

theorem resolve_returns_node_for_object_root_witness :
    keysOK (JValue.obj [("a", JValue.obj [("b", JValue.num 1)])]) = true ∧
      getSchemaAtPath
        (analyzeJson defaultSampler
          (JValue.obj [("a", JValue.obj [("b", JValue.num 1)])]))
        ["a", "b"]
      = some (analyzeNode defaultSampler [("b", JValue.num 1)] "b"
          (JValue.num 1)) := by
  refine ⟨by simp [keysOK, keysOK.keysOKFields, reservedKeys], ?_⟩
  have hmem : (["a", "b"],
      analyzeNode defaultSampler [("b", JValue.num 1)] "b"
        (JValue.num 1)) ∈ nodePaths (analyzeJson defaultSampler
          (JValue.obj [("a", JValue.obj [("b", JValue.num 1)])])) := by
    simp [analyzeJson, analyzeObject, analyzeFields, analyzeNode,
      nodePaths, addSchemaItemsPaths, addSchemaItemPaths, pathExtend,
      dynTypeIs, propsEntries, lookupD, String.reduceEq,
      computeValueStats, getExamples, isInstOfTypeOf, isInstNum,
      isInstStr, isNone, pyTypeName, Dyn.hasKey]
  exact resolve_returns_node_for_object_root defaultSampler
    [("a", JValue.obj [("b", JValue.num 1)])]
    (by simp [keysOK, keysOK.keysOKFields, reservedKeys]) ["a", "b"] _
    hmem

/-! ## C7: jq query normalization (`_fix_jq_syntax`) -/

/-! ### C7 lemma layer -/

theorem stripLit_sound {p l r : List Char} (h : stripLit p l = some r) :
    l = p ++ r := by
  induction p generalizing l with
  | nil => simpa [stripLit] using h
  | cons c cs ih =>
      match l with
      | [] => simp [stripLit] at h
      | x :: xs =>
          simp only [stripLit] at h
          by_cases hx : x = c
          · simp only [if_pos hx] at h
            simp [hx, ih h]
          · simp [if_neg hx] at h

theorem stripLit_append (p r : List Char) : stripLit p (p ++ r) = some r := by
  induction p with
  | nil => simp [stripLit]
  | cons c cs ih => simp [stripLit, ih]

theorem replaceAll_self (old nw : List Char) (h : old ≠ []) :
    replaceAll old nw old = nw := by
  obtain ⟨c, rest, rfl⟩ : ∃ c rest, old = c :: rest := by
    cases old with
    | nil => exact absurd rfl h
    | cons c rest => exact ⟨c, rest, rfl⟩
  have hs : stripLit (c :: rest) (c :: rest) = some [] := by
    have := stripLit_append (c :: rest) []
    simpa using this
  simp [replaceAll, hs]

theorem takeWhile_all {p : Char → Bool} :
    ∀ l : List Char, (∀ c ∈ l, p c = true) → l.takeWhile p = l := by
  intro l h
  induction l with
  | nil => rfl
  | cons c r ih =>
      simp only [List.takeWhile_cons, h c (List.mem_cons_self c r), if_true]
      rw [ih (fun d hd => h d (List.mem_cons_of_mem _ hd))]

theorem wordChar_not_space {c : Char} (h : isWordChar c = true) :
    pyIsSpace c = false := by
  by_contra hs
  have hs2 : pyIsSpace c = true := by
    cases hps : pyIsSpace c
    · exact absurd hps hs
    · rfl
  rcases (by simpa [pyIsSpace, Bool.or_eq_true, decide_eq_true_eq]
      using hs2) with ((((h1 | h1) | h1) | h1) | h1) | h1 <;>
    (subst h1; exact absurd h (by decide))

theorem wordChar_not_dash {c : Char} (h : isWordChar c = true) :
    (decide (c = '-')) = false := by
  by_contra hd
  have : c = '-' := by
    cases hdc : decide (c = '-')
    · exact absurd hdc hd
    · exact of_decide_eq_true hdc
  subst this
  exact absurd h (by decide)

theorem noPair_head {p : Char → Char → Bool} {a b : Char} {l : List Char}
    (h : noPair p (a :: b :: l) = true) : p a b = false := by
  simp only [noPair, Bool.and_eq_true, Bool.not_eq_true'] at h
  exact h.1

theorem noPair_tail {p : Char → Char → Bool} {a : Char} {l : List Char}
    (h : noPair p (a :: l) = true) : noPair p l = true := by
  cases l with
  | nil => rfl
  | cons b r =>
      simp only [noPair, Bool.and_eq_true, Bool.not_eq_true'] at h
      simpa [noPair] using h.2

theorem noPair_suffix (p : Char → Char → Bool) {l₂ l : List Char}
    (h : l₂ <:+ l) (hn : noPair p l = true) : noPair p l₂ = true := by
  obtain ⟨t, rfl⟩ := h
  induction t with
  | nil => simpa using hn
  | cons a t ih =>
      rw [List.cons_append] at hn
      exact ih (noPair_tail hn)

theorem noPair_append (p : Char → Char → Bool) :
    ∀ l₁ l₂ : List Char, noPair p l₁ = true → noPair p l₂ = true →
      (∀ a b, l₁.getLast? = some a → l₂.head? = some b → p a b = false) →
      noPair p (l₁ ++ l₂) = true := by
  intro l₁
  induction l₁ with
  | nil =>
      intro l₂ _ h₂ _
      simpa using h₂
  | cons a l₁ ih =>
      intro l₂ h₁ h₂ hb
      cases l₁ with
      | nil =>
          cases l₂ with
          | nil => simp [noPair]
          | cons b r =>
              have hab : p a b = false := hb a b rfl rfl
              simp only [List.cons_append, List.nil_append, noPair, hab,
                Bool.not_false, Bool.true_and]
              exact h₂
      | cons a2 l₁' =>
          have hh := noPair_head h₁
          have ht := noPair_tail h₁
          have hb' : ∀ x y, (a2 :: l₁').getLast? = some x →
              l₂.head? = some y → p x y = false := by
            intro x y hx hy
            exact hb x y (by rw [List.getLast?_cons_cons]; exact hx) hy
          have h3 := ih l₂ ht h₂ hb'
          simp only [List.cons_append] at h3 ⊢
          simp only [noPair, hh, Bool.not_false, Bool.true_and]
          exact h3

theorem noPair_of_snd_false (p : Char → Char → Bool) (P : Char → Bool)
    (hp : ∀ a b, P b = false → p a b = false) :
    ∀ l : List Char, (∀ c ∈ l, P c = false) → noPair p l = true := by
  intro l
  induction l with
  | nil => intro _; simp [noPair]
  | cons a l ih =>
      intro h
      cases l with
      | nil => simp [noPair]
      | cons b r =>
          have hb : P b = false := h b (List.mem_cons_of_mem _
            (List.mem_cons_self b r))
          have h2 := ih (fun c hc => h c (List.mem_cons_of_mem _ hc))
          simp only [noPair, hp a b hb, Bool.not_false, Bool.true_and]
          exact h2

theorem stripWS1_suffix {l r : List Char} (h : stripWS1 l = some r) :
    r <:+ l := by
  cases l with
  | nil => simp [stripWS1] at h
  | cons c rest =>
      simp only [stripWS1] at h
      by_cases hc : pyIsSpace c = true
      · simp only [if_pos hc] at h
        obtain rfl := Option.some.inj h
        exact (List.dropWhile_suffix _).trans (List.suffix_cons c rest)
      · simp [if_neg hc] at h

theorem firstSearch_eq_some_head {α : Type} (m : List Char → Option α)
    (l : List Char) (a : α) (hne : l ≠ []) (h : m l = some a) :
    firstSearch m l = some a := by
  cases l with
  | nil => exact absurd rfl hne
  | cons c r => simp [firstSearch, h]

theorem firstSearch_isSome_append {α : Type} (m : List Char → Option α)
    (l₁ l₂ : List Char) (h : (m l₂).isSome = true) :
    (firstSearch m (l₁ ++ l₂)).isSome = true := by
  induction l₁ with
  | nil =>
      rw [List.nil_append]
      cases l₂ with
      | nil => simpa [firstSearch] using h
      | cons c r =>
          cases hm : m (c :: r) with
          | none => rw [hm] at h; simp at h
          | some a => simp [firstSearch, hm]
  | cons c l₁ ih =>
      rw [List.cons_append]
      cases hm : m (c :: (l₁ ++ l₂)) with
      | none => simpa [firstSearch, hm] using ih
      | some a => simp [firstSearch, hm]

theorem firstSearch_none_of_noPair {α : Type} (p : Char → Char → Bool)
    (m : List Char → Option α)
    (hm : ∀ l, noPair p l = true → m l = none) :
    ∀ l, noPair p l = true → firstSearch m l = none := by
  intro l
  induction l with
  | nil => intro h; simpa [firstSearch] using hm [] h
  | cons c rest ih =>
      intro h
      simp [firstSearch, hm _ h, ih (noPair_tail h)]

theorem sort_ws_fail {l : List Char} (h : noPair tSpacePair l = true) :
    stripLit "sort".data l = none ∨
      ∃ l1, stripLit "sort".data l = some l1 ∧ stripWS1 l1 = none := by
  cases hsl : stripLit "sort".data l with
  | none => exact Or.inl rfl
  | some l1 =>
      right
      refine ⟨l1, rfl, ?_⟩
      have hl : l = 's' :: 'o' :: 'r' :: 't' :: l1 := stripLit_sound hsl
      subst hl
      have h4 : noPair tSpacePair ('t' :: l1) = true :=
        noPair_tail (noPair_tail (noPair_tail h))
      cases l1 with
      | nil => rfl
      | cons d r =>
          have hp := noPair_head h4
          have hd : pyIsSpace d = false := by
            simpa [tSpacePair] using hp
          simp [stripWS1, hd]

theorem matchSortRB_none_tS {l : List Char}
    (h : noPair tSpacePair l = true) : matchSortRB l = none := by
  rcases sort_ws_fail h with h1 | ⟨l1, h1, h2⟩
  · simp [matchSortRB, h1]
  · simp [matchSortRB, h1, h2]

theorem matchSortRKey_none_rS {l : List Char}
    (h : noPair rSpacePair l = true) : matchSortRKey l = none := by
  cases h1 : stripLit "sort".data l with
  | none => simp [matchSortRKey, h1]
  | some l1 =>
      cases h2 : stripWS1 l1 with
      | none => simp [matchSortRKey, h1, h2]
      | some l2 =>
          cases h3 : stripLit "-r".data l2 with
          | none => simp [matchSortRKey, h1, h2, h3]
          | some l3 =>
              have hl2 : l2 = '-' :: 'r' :: l3 := stripLit_sound h3
              have hsuf : l2 <:+ l := by
                refine (stripWS1_suffix h2).trans ?_
                exact ⟨"sort".data, (stripLit_sound h1).symm⟩
              have hn2 : noPair rSpacePair l2 = true := noPair_suffix _ hsuf h
              rw [hl2] at hn2
              have hn3 : noPair rSpacePair ('r' :: l3) = true :=
                noPair_tail hn2
              have hws : stripWS1 l3 = none := by
                cases l3 with
                | nil => rfl
                | cons d r =>
                    have hp := noPair_head hn3
                    have hd : pyIsSpace d = false := by
                      simpa [rSpacePair] using hp
                    simp [stripWS1, hd]
              simp [matchSortRKey, h1, h2, h3, hws]

theorem stripKey_none_dash {l : List Char}
    (h : noPair dashPair l = true) : stripLit "--key=".data l = none := by
  cases l with
  | nil => rfl
  | cons x xs =>
      by_cases hx : x = '-'
      · subst hx
        cases xs with
        | nil => rfl
        | cons y ys =>
            have hp := noPair_head h
            have hy : ¬ y = '-' := by
              simpa [dashPair] using hp
            simp [stripLit, hy]
      · simp [stripLit, hx]

theorem containsKey_false_dash {l : List Char}
    (h : noPair dashPair l = true) : containsTok "--key=" l = false := by
  unfold containsTok
  rw [firstSearch_none_of_noPair dashPair _
    (fun l' h' => stripKey_none_dash h') l h]
  rfl

theorem tSpace_snd {b : Char} (hb : pyIsSpace b = false) (a : Char) :
    tSpacePair a b = false := by
  simp [tSpacePair, hb]

theorem rSpace_snd {b : Char} (hb : pyIsSpace b = false) (a : Char) :
    rSpacePair a b = false := by
  simp [rSpacePair, hb]

theorem dash_snd {b : Char} (hb : ¬ b = '-') (a : Char) :
    dashPair a b = false := by
  simp [dashPair, hb]

theorem field_no_space {c0 : Char} {w' : List Char}
    (hc : isWordChar c0 = true) (hw : ∀ c ∈ w', isWordChar c = true) :
    ∀ c ∈ ('.' :: c0 :: w'), pyIsSpace c = false := by
  intro c hcm
  simp only [List.mem_cons] at hcm
  rcases hcm with rfl | rfl | hcm
  · decide
  · exact wordChar_not_space hc
  · exact wordChar_not_space (hw c hcm)

theorem fixJq_rkey (c0 : Char) (w' : List Char)
    (hc : isWordChar c0 = true) (hw : ∀ c ∈ w', isWordChar c = true) :
    fixJqSyntax ("sort -r --key=".data ++ ('.' :: c0 :: w')) =
      "sort_by(".data ++ ('.' :: c0 :: w') ++ ") | reverse".data := by
  have htw : w'.takeWhile isFieldChar = w' :=
    takeWhile_all _ (fun c hc' => by simp [isFieldChar, hw c hc'])
  have hm0 : matchSortRKey ("sort -r --key=".data ++ ('.' :: c0 :: w')) =
      some ('.' :: c0 :: w') := by
    show matchSortRKey ('s' :: 'o' :: 'r' :: 't' :: ' ' :: '-' :: 'r' ::
      ' ' :: '-' :: '-' :: 'k' :: 'e' :: 'y' :: '=' :: '.' :: c0 :: w') = _
    simp [matchSortRKey, stripLit, stripWS1, matchField, pyIsSpace,
      List.dropWhile, hc, htw]
  have hne : "sort -r --key=".data ++ ('.' :: c0 :: w') ≠ [] := by simp
  have hfs : firstSearch matchSortRKey
      ("sort -r --key=".data ++ ('.' :: c0 :: w')) =
      some ('.' :: c0 :: w') :=
    firstSearch_eq_some_head _ _ _ hne hm0
  have hkey : containsTok "--key="
      ("sort -r --key=".data ++ ('.' :: c0 :: w')) = true := by
    unfold containsTok
    have e0 : "sort -r --key=".data =
        "sort -r ".data ++ "--key=".data := by decide
    rw [e0, List.append_assoc]
    exact firstSearch_isSome_append _ _ _ (by rw [stripLit_append]; rfl)
  have hnp1 : noPair tSpacePair
      (('.' :: c0 :: w') ++ ") | reverse".data) = true := by
    refine noPair_append _ _ _
      (noPair_of_snd_false _ pyIsSpace (fun a b hb => tSpace_snd hb a) _
        (field_no_space hc hw))
      (by decide) ?_
    intro a b _ hb
    have hb' : b = ')' := by
      have h0 : (") | reverse".data).head? = some ')' := rfl
      rw [h0] at hb
      exact (Option.some.inj hb).symm
    subst hb'
    exact tSpace_snd (by decide) a
  have hnpA : noPair tSpacePair ("sort_by(".data ++
      (('.' :: c0 :: w') ++ ") | reverse".data)) = true := by
    refine noPair_append _ _ _ (by decide) hnp1 ?_
    intro a b _ hb
    have hb' : b = '.' := by
      have h0 : ((('.' :: c0 :: w') ++ ") | reverse".data)).head? =
          some '.' := rfl
      rw [h0] at hb
      exact (Option.some.inj hb).symm
    subst hb'
    exact tSpace_snd (by decide) a
  have hrb : firstSearch matchSortRB ("sort_by(".data ++
      ('.' :: c0 :: w') ++ ") | reverse".data) = none := by
    rw [List.append_assoc]
    exact firstSearch_none_of_noPair tSpacePair _
      (fun l' h' => matchSortRB_none_tS h') _ hnpA
  simp only [fixJqSyntax, hkey, if_true, hfs]
  rw [replaceAll_self _ _ hne]
  rw [hrb]
  simp

theorem fixJq_key (c0 : Char) (w' : List Char)
    (hc : isWordChar c0 = true) (hw : ∀ c ∈ w', isWordChar c = true) :
    fixJqSyntax ("sort --key=".data ++ ('.' :: c0 :: w')) =
      "sort_by(".data ++ ('.' :: c0 :: w') ++ ")".data := by
  have htw : w'.takeWhile isFieldChar = w' :=
    takeWhile_all _ (fun c hc' => by simp [isFieldChar, hw c hc'])
  have hm0 : matchSortKey ("sort --key=".data ++ ('.' :: c0 :: w')) =
      some ('.' :: c0 :: w') := by
    show matchSortKey ('s' :: 'o' :: 'r' :: 't' :: ' ' :: '-' :: '-' ::
      'k' :: 'e' :: 'y' :: '=' :: '.' :: c0 :: w') = _
    simp [matchSortKey, stripLit, stripWS1, matchField, pyIsSpace,
      List.dropWhile, hc, htw]
  have hne : "sort --key=".data ++ ('.' :: c0 :: w') ≠ [] := by simp
  have hfsK : firstSearch matchSortKey
      ("sort --key=".data ++ ('.' :: c0 :: w')) =
      some ('.' :: c0 :: w') :=
    firstSearch_eq_some_head _ _ _ hne hm0
  have hkey : containsTok "--key="
      ("sort --key=".data ++ ('.' :: c0 :: w')) = true := by
    unfold containsTok
    have e0 : "sort --key=".data = "sort ".data ++ "--key=".data := by
      decide
    rw [e0, List.append_assoc]
    exact firstSearch_isSome_append _ _ _ (by rw [stripLit_append]; rfl)
  have hnpq : noPair rSpacePair
      ("sort --key=".data ++ ('.' :: c0 :: w')) = true := by
    refine noPair_append _ _ _ (by decide)
      (noPair_of_snd_false _ pyIsSpace (fun a b hb => rSpace_snd hb a) _
        (field_no_space hc hw)) ?_
    intro a b _ hb
    have hb' : b = '.' := by
      have h0 : (('.' :: c0 :: w') : List Char).head? = some '.' := rfl
      rw [h0] at hb
      exact (Option.some.inj hb).symm
    subst hb'
    exact rSpace_snd (by decide) a
  have hrkNone : firstSearch matchSortRKey
      ("sort --key=".data ++ ('.' :: c0 :: w')) = none :=
    firstSearch_none_of_noPair rSpacePair _
      (fun l' h' => matchSortRKey_none_rS h') _ hnpq
  have hnp1 : noPair tSpacePair
      (('.' :: c0 :: w') ++ ")".data) = true := by
    refine noPair_append _ _ _
      (noPair_of_snd_false _ pyIsSpace (fun a b hb => tSpace_snd hb a) _
        (field_no_space hc hw))
      (by decide) ?_
    intro a b _ hb
    have hb' : b = ')' := by
      have h0 : (")".data).head? = some ')' := rfl
      rw [h0] at hb
      exact (Option.some.inj hb).symm
    subst hb'
    exact tSpace_snd (by decide) a
  have hnpA : noPair tSpacePair ("sort_by(".data ++
      (('.' :: c0 :: w') ++ ")".data)) = true := by
    refine noPair_append _ _ _ (by decide) hnp1 ?_
    intro a b _ hb
    have hb' : b = '.' := by
      have h0 : ((('.' :: c0 :: w') ++ ")".data)).head? = some '.' := rfl
      rw [h0] at hb
      exact (Option.some.inj hb).symm
    subst hb'
    exact tSpace_snd (by decide) a
  have hrb : firstSearch matchSortRB ("sort_by(".data ++
      ('.' :: c0 :: w') ++ ")".data) = none := by
    rw [List.append_assoc]
    exact firstSearch_none_of_noPair tSpacePair _
      (fun l' h' => matchSortRB_none_tS h') _ hnpA
  simp only [fixJqSyntax, hkey, if_true, hrkNone, hfsK]
  rw [replaceAll_self _ _ hne]
  rw [hrb]
  simp

theorem fixJq_rfield (c0 : Char) (w' : List Char)
    (hc : isWordChar c0 = true) (hw : ∀ c ∈ w', isWordChar c = true) :
    fixJqSyntax ("sort -r ".data ++ ('.' :: c0 :: w')) =
      "sort_by(".data ++ ('.' :: c0 :: w') ++ ") | reverse".data := by
  have htw : w'.takeWhile isFieldChar = w' :=
    takeWhile_all _ (fun c hc' => by simp [isFieldChar, hw c hc'])
  have hne : "sort -r ".data ++ ('.' :: c0 :: w') ≠ [] := by simp
  have hnpd : noPair dashPair
      ("sort -r ".data ++ ('.' :: c0 :: w')) = true := by
    refine noPair_append _ _ _ (by decide)
      (noPair_of_snd_false _ (fun c => decide (c = '-'))
        (fun a b hb => dash_snd (of_decide_eq_false hb) a) _ ?_) ?_
    · intro c hcm
      simp only [List.mem_cons] at hcm
      rcases hcm with rfl | rfl | hcm
      · decide
      · exact wordChar_not_dash hc
      · exact wordChar_not_dash (hw c hcm)
    · intro a b _ hb
      have hb' : b = '.' := by
        have h0 : (('.' :: c0 :: w') : List Char).head? = some '.' := rfl
        rw [h0] at hb
        exact (Option.some.inj hb).symm
      subst hb'
      exact dash_snd (by decide) a
  have hdash : containsTok "--key="
      ("sort -r ".data ++ ('.' :: c0 :: w')) = false :=
    containsKey_false_dash hnpd
  have hm0 : matchSortRB ("sort -r ".data ++ ('.' :: c0 :: w')) =
      some () := by
    show matchSortRB ('s' :: 'o' :: 'r' :: 't' :: ' ' :: '-' :: 'r' ::
      ' ' :: '.' :: c0 :: w') = _
    simp [matchSortRB, stripLit, stripWS1, pyIsSpace, isWordChar,
      List.dropWhile]
  have hrbSome : (firstSearch matchSortRB
      ("sort -r ".data ++ ('.' :: c0 :: w'))).isSome = true := by
    rw [firstSearch_eq_some_head _ _ _ hne hm0]
    rfl
  have hm1 : matchSortRField ("sort -r ".data ++ ('.' :: c0 :: w')) =
      some ('.' :: c0 :: w') := by
    show matchSortRField ('s' :: 'o' :: 'r' :: 't' :: ' ' :: '-' :: 'r' ::
      ' ' :: '.' :: c0 :: w') = _
    simp [matchSortRField, stripLit, stripWS1, matchField, pyIsSpace,
      List.dropWhile, hc, htw]
  have hrfield : firstSearch matchSortRField
      ("sort -r ".data ++ ('.' :: c0 :: w')) =
      some ('.' :: c0 :: w') :=
    firstSearch_eq_some_head _ _ _ hne hm1
  simp only [fixJqSyntax, hdash, Bool.false_eq_true, if_false, hrbSome,
    if_true, hrfield]
  exact replaceAll_self _ _ hne

theorem fixJq_bare : fixJqSyntax "sort -r".data = "sort | reverse".data := by
  have hc : containsTok "--key=" "sort -r".data = false := by decide
  have hrb : (firstSearch matchSortRB "sort -r".data).isSome = true := by
    decide
  have hrf : firstSearch matchSortRField "sort -r".data = none := by decide
  simp only [fixJqSyntax, hc, Bool.false_eq_true, if_false, hrb, if_true,
    hrf]
  exact replaceAll_self _ _ (by decide)

theorem fixJq_unchanged (q : List Char)
    (h1 : firstSearch matchSortRKey q = none)
    (h2 : firstSearch matchSortKey q = none)
    (h3 : firstSearch matchSortRB q = none) :
    fixJqSyntax q = q := by
  simp only [fixJqSyntax, h1, h2, h3, ite_self, Option.isSome_none,
    Bool.false_eq_true, if_false]

/-- C7: `_fix_jq_syntax` rewrites, for every nonempty all-word-character
field name `w`: the flag-style descending sort
`sort -r --key=.w` to `sort_by(.w) | reverse`, the non-reversed flag form
`sort --key=.w` to `sort_by(.w)`, the bare reversed sort with a field
`sort -r .w` to `sort_by(.w) | reverse`, and the bare `sort -r` to
`sort | reverse`; every query in which none of the three regex patterns
(`sort\s+-r\s+--key=...`, `sort\s+--key=...`, `sort\s+-r\b`) matches
anywhere is returned unchanged. -/
theorem fix_jq_sort_rewrites :
    (∀ w : List Char, w ≠ [] → (∀ c ∈ w, isWordChar c = true) →
      fixJqSyntax ("sort -r --key=".data ++ ('.' :: w)) =
        "sort_by(".data ++ ('.' :: w) ++ ") | reverse".data ∧
      fixJqSyntax ("sort --key=".data ++ ('.' :: w)) =
        "sort_by(".data ++ ('.' :: w) ++ ")".data ∧
      fixJqSyntax ("sort -r ".data ++ ('.' :: w)) =
        "sort_by(".data ++ ('.' :: w) ++ ") | reverse".data) ∧
    fixJqSyntax "sort -r".data = "sort | reverse".data ∧
    (∀ q : List Char,
      firstSearch matchSortRKey q = none →
      firstSearch matchSortKey q = none →
      firstSearch matchSortRB q = none →
      fixJqSyntax q = q) := by
  refine ⟨?_, fixJq_bare, fixJq_unchanged⟩
  intro w hne hw
  obtain ⟨c0, w', rfl⟩ := List.exists_cons_of_ne_nil hne
  have hc : isWordChar c0 = true := hw c0 (List.mem_cons_self _ _)
  have hw' : ∀ c ∈ w', isWordChar c = true := fun c hc' =>
    hw c (List.mem_cons_of_mem _ hc')
  exact ⟨fixJq_rkey c0 w' hc hw', fixJq_key c0 w' hc hw',
    fixJq_rfield c0 w' hc hw'⟩

theorem fix_jq_sort_rewrites_witness :
    ("name".data ≠ [] ∧ "name".data.all isWordChar = true) ∧
    fixJqSyntax ("sort -r --key=".data ++ ('.' :: "name".data)) =
      "sort_by(".data ++ ('.' :: "name".data) ++ ") | reverse".data :=
  ⟨⟨by decide, by decide⟩,
   (fix_jq_sort_rewrites.1 "name".data (by decide) (by decide)).1⟩

/-! ## C6: string frequency statistics -/

theorem mem_distinctFirst (l : List String) (a : String) :
    a ∈ distinctFirst l ↔ a ∈ l := by
  have main : ∀ (n : Nat) (l : List String), l.length ≤ n → ∀ a,
      (a ∈ distinctFirst l ↔ a ∈ l) := by
    intro n
    induction n with
    | zero =>
        intro l hl a
        cases l with
        | nil => simp [distinctFirst]
        | cons x xs => simp at hl
    | succ n ih =>
        intro l hl a
        cases l with
        | nil => simp [distinctFirst]
        | cons x xs =>
            have hlen : (xs.filter (fun y => ¬ y = x)).length ≤ n := by
              have := List.length_filter_le (fun y => ¬ y = x) xs
              simp at hl
              omega
            simp only [distinctFirst, List.mem_cons]
            constructor
            · rintro (rfl | h)
              · exact Or.inl rfl
              · exact Or.inr (List.mem_of_mem_filter
                  ((ih _ hlen a).mp h))
            · rintro (rfl | h)
              · exact Or.inl rfl
              · by_cases hax : a = x
                · exact Or.inl hax
                · exact Or.inr ((ih _ hlen a).mpr
                    (List.mem_filter.mpr ⟨h, by simp [hax]⟩))
  exact main l.length l le_rfl a

theorem mem_counterItems (l : List String) (s : String) (c : Nat) :
    (s, c) ∈ counterItems l ↔ s ∈ l ∧ c = countOcc l s := by
  simp only [counterItems, List.mem_map, Prod.mk.injEq]
  constructor
  · rintro ⟨t, ht, rfl, rfl⟩
    exact ⟨(mem_distinctFirst l t).mp ht, rfl⟩
  · rintro ⟨hs, rfl⟩
    exact ⟨s, (mem_distinctFirst l s).mpr hs, rfl, rfl⟩

theorem perm_insertDescCount (x : String × Nat) (s : List (String × Nat)) :
    List.Perm (insertDescCount x s) (x :: s) := by
  induction s with
  | nil => simp [insertDescCount]
  | cons y ys ih =>
      simp only [insertDescCount]
      by_cases h : y.2 ≤ x.2
      · rw [if_pos h]
      · rw [if_neg h]
        exact (ih.cons y).trans (List.Perm.swap x y ys)

theorem perm_sortDescCount (l : List (String × Nat)) :
    List.Perm (sortDescCount l) l := by
  induction l with
  | nil => simp [sortDescCount]
  | cons x xs ih =>
      simp only [sortDescCount]
      exact (perm_insertDescCount x (sortDescCount xs)).trans (ih.cons x)

theorem head_insertDescCount (x : String × Nat) (s : List (String × Nat)) :
    (insertDescCount x s).head? = some x ∨
      (insertDescCount x s).head? = s.head? := by
  cases s with
  | nil => simp [insertDescCount]
  | cons y ys =>
      by_cases h : y.2 ≤ x.2
      · simp [insertDescCount, h]
      · simp [insertDescCount, h]

theorem sorted_insertDescCount (x : String × Nat) :
    ∀ s, List.Chain' (fun a b => b.2 ≤ a.2) s →
      List.Chain' (fun a b => b.2 ≤ a.2) (insertDescCount x s) := by
  intro s
  induction s with
  | nil => intro _; simp [insertDescCount]
  | cons y ys ih =>
      intro hs
      simp only [insertDescCount]
      by_cases h : y.2 ≤ x.2
      · rw [if_pos h]
        exact List.chain'_cons.mpr ⟨h, hs⟩
      · rw [if_neg h]
        have hs2 := List.chain'_cons'.mp hs
        refine List.chain'_cons'.mpr ⟨?_, ih hs2.2⟩
        intro b hb
        rcases head_insertDescCount x ys with hh | hh
        · rw [hh] at hb
          simp at hb
          subst hb
          omega
        · rw [hh] at hb
          exact hs2.1 b hb

theorem sorted_sortDescCount (l : List (String × Nat)) :
    List.Chain' (fun a b => b.2 ≤ a.2) (sortDescCount l) := by
  induction l with
  | nil => simp [sortDescCount]
  | cons x xs ih =>
      simp only [sortDescCount]
      exact sorted_insertDescCount x _ ih

theorem sublist_insertDescCount (x : String × Nat)
    (s : List (String × Nat)) : List.Sublist s (insertDescCount x s) := by
  induction s with
  | nil => simp
  | cons y ys ih =>
      simp only [insertDescCount]
      by_cases h : y.2 ≤ x.2
      · rw [if_pos h]
        exact List.Sublist.cons x (List.Sublist.refl _)
      · rw [if_neg h]
        exact List.Sublist.cons₂ y ih

theorem insertDescCount_keeps (x b : String × Nat) :
    ∀ s, b ∈ s → b.2 ≤ x.2 → List.Sublist [x, b] (insertDescCount x s) := by
  intro s
  induction s with
  | nil => intro hb; cases hb
  | cons y ys ih =>
      intro hb hle
      simp only [insertDescCount]
      by_cases h : y.2 ≤ x.2
      · rw [if_pos h]
        exact List.Sublist.cons₂ x (List.singleton_sublist.mpr hb)
      · rw [if_neg h]
        rcases List.mem_cons.mp hb with rfl | hb2
        · omega
        · exact List.Sublist.cons y (ih hb2 hle)

theorem stable_sortDescCount (a b : String × Nat) (hab : a.2 = b.2) :
    ∀ l, List.Sublist [a, b] l → List.Sublist [a, b] (sortDescCount l) := by
  intro l
  induction l with
  | nil =>
      intro hsub
      have := hsub.length_le
      simp at this
  | cons x xs ih =>
      intro hsub
      simp only [sortDescCount]
      rcases List.sublist_cons_iff.mp hsub with h | ⟨r, hr, hrs⟩
      · exact (ih h).trans (sublist_insertDescCount x _)
      · have ha : a = x := by
          have := congrArg (fun t => t.head?) hr
          simpa using this
        have hb2 : r = [b] := by
          have := congrArg (fun t => t.tail) hr
          simpa using this.symm
        subst ha
        subst hb2
        have hbmem : b ∈ sortDescCount xs :=
          (perm_sortDescCount xs).symm.subset
            (List.singleton_sublist.mp hrs)
        exact insertDescCount_keeps a b _ hbmem (by omega)

/-- C6: for every nonempty uniformly string-typed array with fewer than
1000 elements, the stats contain a frequency map over exact string
equality (`counterItems` pairs each distinct value, in first-encounter
order, with its exact count); `most_common` is the first 5 entries of
the count-descending stable sort of those pairs — descending by count,
ties kept in first-encountered order (stability) — and `least_common` is
present exactly when more than 5 distinct values exist, listing the 5
lowest-frequency pairs in ascending count order with ties in
reverse-of-first-encountered order (the reversed tail of the same sort).
For `["a","a","b","c","a","b"]` the frequencies are a:3, b:2, c:1 and
`most_common` is `[(a,3),(b,2),(c,1)]`. -/
theorem string_array_frequency (g : Sampler) (arr : List JValue)
    (hne : arr ≠ []) (hstr : arr.all isInstStr = true)
    (hlen : arr.length < 1000) :
    ((computeArrayStats g arr).lookup "most_common"
        = some (Dyn.list (((mostCommonAll (arr.map strVal)).take 5).map
            freqEntry))) ∧
    ((computeArrayStats g arr).hasKey "least_common" = true
        ↔ 5 < (counterItems (arr.map strVal)).length) ∧
    (5 < (counterItems (arr.map strVal)).length →
      (computeArrayStats g arr).lookup "least_common"
        = some (Dyn.list (((mostCommonAll
            (arr.map strVal)).reverse.take 5).map freqEntry))) ∧
    (∀ s c, (s, c) ∈ counterItems (arr.map strVal)
        ↔ s ∈ arr.map strVal ∧ c = countOcc (arr.map strVal) s) ∧
    List.Perm (mostCommonAll (arr.map strVal))
      (counterItems (arr.map strVal)) ∧
    List.Chain' (fun a b => b.2 ≤ a.2) (mostCommonAll (arr.map strVal)) ∧
    (∀ a b : String × Nat, a.2 = b.2 →
      List.Sublist [a, b] (counterItems (arr.map strVal)) →
      List.Sublist [a, b] (mostCommonAll (arr.map strVal))) ∧
    List.Chain' (fun a b => a.2 ≤ b.2)
      ((mostCommonAll (arr.map strVal)).reverse) ∧
    (counterItems ["a", "a", "b", "c", "a", "b"]
        = [("a", 3), ("b", 2), ("c", 1)] ∧
     (mostCommonAll ["a", "a", "b", "c", "a", "b"]).take 5
        = [("a", 3), ("b", 2), ("c", 1)] ∧
     (computeArrayStats defaultSampler
        [JValue.str "a", JValue.str "a", JValue.str "b", JValue.str "c",
         JValue.str "a", JValue.str "b"]).lookup "most_common"
        = some (Dyn.list [freqEntry ("a", 3), freqEntry ("b", 2),
            freqEntry ("c", 1)])) := by
  match arr, hne with
  | x :: rest, _ =>
    have hx : isInstStr x = true := (all_mem_iff _ _).mp hstr x (by simp)
    cases x with
    | null => simp [isInstStr] at hx
    | bool b => simp [isInstStr] at hx
    | num m => simp [isInstStr] at hx
    | arr l => simp [isInstStr] at hx
    | obj l => simp [isInstStr] at hx
    | str s0 =>
      have hsame : ((JValue.str s0) :: rest).all
          (fun y => isInstOfTypeOf y (JValue.str s0)) = true := by
        rw [all_mem_iff]
        intro y hy
        have hys := (all_mem_iff _ _).mp hstr y hy
        cases y <;> simp_all [isInstStr, isInstOfTypeOf]
      have hnumF : ((JValue.str s0) :: rest).all isInstNum = false := by
        simp [isInstNum]
      have hmne : mostCommonAll
          (strVal (JValue.str s0) :: List.map strVal rest) ≠ [] := by
        have hp := perm_sortDescCount
          (counterItems (strVal (JValue.str s0) :: List.map strVal rest))
        intro hnil
        rw [mostCommonAll] at hnil
        have hle := hp.length_eq
        rw [hnil] at hle
        simp [counterItems, distinctFirst] at hle
      refine ⟨?_, ?_, ?_, fun s c => mem_counterItems _ s c,
        perm_sortDescCount _, sorted_sortDescCount _,
        fun a b hab hsub => stable_sortDescCount a b hab _ hsub,
        ?_, ?_, ?_, ?_⟩
      · simp only [computeArrayStats, hsame, hnumF, Bool.false_eq_true,
          false_and, and_false, if_false, true_and, and_self, hlen]
        by_cases h5d : 5 < (counterItems
            (strVal (JValue.str s0) :: List.map strVal rest)).length
        all_goals by_cases h5l : 5 < rest.length + 1
        all_goals
          simp [hstr, hmne, h5d, h5l, Dyn.lookup, Dyn.hasKey,
            lookupD_append, lookupD, oElse, String.reduceEq]
      · simp only [computeArrayStats, hsame, hnumF, Bool.false_eq_true,
          false_and, and_false, if_false, true_and, and_self, hlen]
        by_cases h5d : 5 < (counterItems
            (strVal (JValue.str s0) :: List.map strVal rest)).length
        all_goals by_cases h5l : 5 < rest.length + 1
        all_goals
          simp [hstr, hmne, h5d, h5l, Dyn.lookup, Dyn.hasKey,
            lookupD_append, lookupD, oElse, String.reduceEq]
      · intro h5d
        simp only [List.map_cons] at h5d
        simp only [computeArrayStats, hsame, hnumF, Bool.false_eq_true,
          false_and, and_false, if_false, true_and, and_self, hlen]
        by_cases h5l : 5 < rest.length + 1
        all_goals
          simp [hstr, hmne, h5d, h5l, Dyn.lookup, Dyn.hasKey,
            lookupD_append, lookupD, oElse, String.reduceEq]
      · rw [List.chain'_reverse]
        exact sorted_sortDescCount _
      · simp [counterItems, distinctFirst, countOcc, String.reduceEq]
      · simp [mostCommonAll, counterItems, distinctFirst, countOcc,
          sortDescCount, insertDescCount, String.reduceEq]
      · simp [computeArrayStats, mostCommonAll, counterItems,
          distinctFirst, countOcc, sortDescCount, insertDescCount,
          freqEntry, strVal, isInstOfTypeOf, isInstStr, isInstNum,
          Dyn.lookup, lookupD_append, lookupD, oElse, String.reduceEq,
          defaultSampler, List.range, List.range.loop]

theorem string_array_frequency_witness :
    (([JValue.str "x", JValue.str "y"] : List JValue) ≠ [] ∧
     ([JValue.str "x", JValue.str "y"].all isInstStr = true) ∧
     ([JValue.str "x", JValue.str "y"] : List JValue).length < 1000) ∧
      (computeArrayStats defaultSampler
          [JValue.str "x", JValue.str "y"]).lookup "most_common"
        = some (Dyn.list (((mostCommonAll
            ([JValue.str "x", JValue.str "y"].map strVal)).take 5).map
              freqEntry)) :=
  ⟨⟨by simp, by decide, by decide⟩,
    (string_array_frequency defaultSampler
      [JValue.str "x", JValue.str "y"] (by simp) (by decide)
      (by decide)).1⟩

/-! ## C5: uniformly numeric array statistics -/

/-- C5 counterexample: for `[3, 3]` — `count = 2` with degenerate (zero)
variance — the code stores `stdev = 0.0` instead of omitting the key:
`statistics.stdev` raises only when `count < 2`, never for zero
variance. -/
theorem stdev_present_zero_variance :
    (computeArrayStats defaultSampler
        [JValue.num 3, JValue.num 3]).hasKey "stdev" = true ∧
    ((computeArrayStats defaultSampler
        [JValue.num 3, JValue.num 3]).lookup "stdev").bind Dyn.getQ
      = some 0 ∧
    sampleVariance [JValue.num 3, JValue.num 3] = 0 := by
  refine ⟨?_, ?_, ?_⟩
  all_goals
    simp [computeArrayStats, sampleVariance, pyMean, toQ, Dyn.lookup,
      Dyn.hasKey, lookupD, Dyn.getQ, String.reduceEq, isInstOfTypeOf,
      isInstNum, Option.bind, pyMedian, sortAscNum, insertAscNum,
      pyListMin, pyListMax, pyMinFold, pyMaxFold]

set_option maxHeartbeats 1000000 in
/-- C5 (amended): for every nonempty uniformly-numeric array the stats
contain `min`, `max` and `mean`; `median` is present exactly when
`count > 1`; `stdev` is present exactly when `count > 1` — including the
zero-variance case — and never by raising an exception; its stored value
is the exact sample variance (the square of the standard deviation, see
the header note).  For `[1,2,3,4,5]`: `min=1`, `max=5`, `mean=3`,
`median=3`, `stdev² = 5/2 ≈ 1.5811²`; for `[7]`: `mean=7`, no `median`
key, no `stdev` key. -/
theorem numeric_array_stats (g : Sampler) (arr : List JValue)
    (hne : arr ≠ []) (hsn : arr.all isStrictNum = true) :
    ((computeArrayStats g arr).lookup "min"
        = some (Dyn.j (pyListMin arr)) ∧
     (computeArrayStats g arr).lookup "max"
        = some (Dyn.j (pyListMax arr)) ∧
     (computeArrayStats g arr).lookup "mean"
        = some (Dyn.q (pyMean arr)) ∧
     ((computeArrayStats g arr).hasKey "median" = true ↔ 1 < arr.length) ∧
     ((computeArrayStats g arr).hasKey "stdev" = true ↔ 1 < arr.length) ∧
     (1 < arr.length →
       (computeArrayStats g arr).lookup "stdev"
         = some (Dyn.q (sampleVariance arr)))) ∧
    (((computeArrayStats defaultSampler
        [JValue.num 1, JValue.num 2, JValue.num 3, JValue.num 4,
         JValue.num 5]).lookup "min").bind Dyn.getNum = some 1 ∧
     ((computeArrayStats defaultSampler
        [JValue.num 1, JValue.num 2, JValue.num 3, JValue.num 4,
         JValue.num 5]).lookup "max").bind Dyn.getNum = some 5 ∧
     ((computeArrayStats defaultSampler
        [JValue.num 1, JValue.num 2, JValue.num 3, JValue.num 4,
         JValue.num 5]).lookup "mean").bind Dyn.getQ = some 3 ∧
     ((computeArrayStats defaultSampler
        [JValue.num 1, JValue.num 2, JValue.num 3, JValue.num 4,
         JValue.num 5]).lookup "median").bind Dyn.getNum = some 3 ∧
     ((computeArrayStats defaultSampler
        [JValue.num 1, JValue.num 2, JValue.num 3, JValue.num 4,
         JValue.num 5]).lookup "stdev").bind Dyn.getQ = some (5 / 2)) ∧
    (((computeArrayStats defaultSampler [JValue.num 7]).lookup
        "mean").bind Dyn.getQ = some 7 ∧
     (computeArrayStats defaultSampler [JValue.num 7]).hasKey "median"
        = false ∧
     (computeArrayStats defaultSampler [JValue.num 7]).hasKey "stdev"
        = false) := by
  refine ⟨?main, ?ex5, ?ex1⟩
  case ex5 =>
    refine ⟨?_, ?_, ?_, ?_, ?_⟩
    all_goals
      simp [computeArrayStats, sampleVariance, pyMean, toQ, Dyn.lookup,
        Dyn.hasKey, lookupD, Dyn.getQ, Dyn.getNum, String.reduceEq,
        isInstOfTypeOf, isInstNum, Option.bind, pyMedian, sortAscNum,
        insertAscNum, pyListMin, pyListMax, pyMinFold, pyMaxFold]
    all_goals norm_num
  case ex1 =>
    refine ⟨?_, ?_, ?_⟩
    all_goals
      simp [computeArrayStats, sampleVariance, pyMean, toQ, Dyn.lookup,
        Dyn.hasKey, lookupD, Dyn.getQ, Dyn.getNum, String.reduceEq,
        isInstOfTypeOf, isInstNum, Option.bind, pyMedian, sortAscNum,
        insertAscNum, pyListMin, pyListMax, pyMinFold, pyMaxFold]
    all_goals norm_num
  case main =>
  match arr, hne with
  | x :: rest, _ =>
    have hx : isStrictNum x = true := (all_mem_iff _ _).mp hsn x (by simp)
    cases x with
    | null => simp [isStrictNum] at hx
    | bool b => simp [isStrictNum] at hx
    | str s => simp [isStrictNum] at hx
    | arr l => simp [isStrictNum] at hx
    | obj l => simp [isStrictNum] at hx
    | num xn =>
      have hsame : ((JValue.num xn) :: rest).all
          (fun y => isInstOfTypeOf y (JValue.num xn)) = true := by
        rw [all_mem_iff]
        intro y hy
        have hys := (all_mem_iff _ _).mp hsn y hy
        cases y <;> simp_all [isStrictNum, isInstOfTypeOf]
      have hnum : ((JValue.num xn) :: rest).all isInstNum = true := by
        rw [all_mem_iff]
        intro y hy
        have hys := (all_mem_iff _ _).mp hsn y hy
        cases y <;> simp_all [isStrictNum, isInstNum]
      obtain ⟨_, h2, h3, h4, h5, h6, _, h8⟩ :=
        computeArrayStats_numeric_lookups g _ rest hsame hnum
      refine ⟨h2, h3, h4, h5, h6, fun hlen => ?_⟩
      rw [h8, if_pos (by simp at hlen; omega)]

theorem numeric_array_stats_witness :
    ([JValue.num 1, JValue.num 2] : List JValue) ≠ [] ∧
      ([JValue.num 1, JValue.num 2].all isStrictNum = true) ∧
      ((computeArrayStats defaultSampler
          [JValue.num 1, JValue.num 2]).lookup "mean"
        = some (Dyn.q (pyMean [JValue.num 1, JValue.num 2]))) :=
  ⟨by simp, by decide,
    (numeric_array_stats defaultSampler [JValue.num 1, JValue.num 2]
      (by simp) (by decide)).1.2.2.1⟩

theorem viewerStep_hidden_lifecycle_witness :
    ¬ (["b"] : List String) = ["a"] ∧
      ((["b"] : List String) ∈
          (viewerStep ⟨[["b"]]⟩
            (ViewerEvent.toggleVisibility ["a"] false)).hiddenPaths ↔
        (["b"] : List String) ∈ ([[ "b" ]] : List (List String))) :=
  ⟨by decide,
    viewerStep_hidden_lifecycle.2.2.2.2 ⟨[["b"]]⟩ ["a"] false ["b"]
      (by decide)⟩

end AskJson
